import Mathlib

/-! gdoc: request resolution of the documentation handler

A shallow embedding of `handler.go` (package `gdoc`).  A Go `string` is modelled as a list of
characters (`Str`); every test the handler and the library routines below perform on a string
compares code units with the ASCII characters `/` and `.` or with whole strings, so on
well-formed UTF-8 text the byte-level and the character-level readings coincide.

The file system, the YAML decoder, the Markdown renderer and the page template are collaborators
of the handler, outside the repository: they are parameters (`FS`, `Lib`).  The routines of the Go
standard library the handler calls (`strings`, `path`) are transcribed from their Go sources.
-/

namespace Gdoc

/-- A Go string. -/
abbrev Str := List Char

/-! ## Package `strings` -/

namespace strings

/-- The Go function `strings.HasSuffix`. -/
def HasSuffix (s suffix : Str) : Bool :=
  decide (suffix.length ≤ s.length) && (s.drop (s.length - suffix.length) == suffix)

/-- The Go function `strings.TrimSuffix`: `s` without the trailing `suffix`, or `s` itself. -/
def TrimSuffix (s suffix : Str) : Str :=
  if HasSuffix s suffix then s.take (s.length - suffix.length) else s

/-- The Go function `strings.TrimLeft`: drops the leading characters that occur in `cutset`. -/
def TrimLeft (s cutset : Str) : Str :=
  s.dropWhile (fun c => cutset.contains c)

/-- The Go function `strings.TrimRight`: drops the trailing characters that occur in `cutset`. -/
def TrimRight (s cutset : Str) : Str :=
  s.rdropWhile (fun c => cutset.contains c)

/-- The Go function `strings.Trim`: drops leading and trailing characters that occur in
`cutset`. -/
def Trim (s cutset : Str) : Str :=
  TrimRight (TrimLeft s cutset) cutset

/-- The Go function `strings.Index`: the position of the first occurrence of `substr` in `s`;
`none` stands for Go's `-1`. -/
def Index : Str → Str → Option Nat
  | [], substr => if substr = [] then some 0 else none
  | c :: s, substr =>
    if substr.isPrefixOf (c :: s) then some 0 else (Index s substr).map (· + 1)

/-- The loop of `strings.Count` for a non-empty `substr`: one round per occurrence found,
the search resuming right after it. Every round consumes at least one character, so
`len(s)` rounds of fuel are never exhausted before the search fails. -/
def Count.loop (substr : Str) : Nat → Str → Nat
  | 0, _ => 0
  | fuel + 1, s =>
    match Index s substr with
    | none => 0
    | some i => Count.loop substr fuel (s.drop (i + substr.length)) + 1

/-- The Go function `strings.Count`: the number of non-overlapping occurrences of `substr`
in `s`; for the empty `substr`, one more than the number of characters. -/
def Count (s substr : Str) : Nat :=
  if substr = [] then s.length + 1 else Count.loop substr s.length s

/-- The replacement loop of `strings.Replace`: `n` rounds, each copying `s[start:j]` and `new`
where `j` is the next occurrence of `old`; `first` tells the first round, in which an empty
`old` matches at once; the text after the last round is copied unchanged. -/
def Replace.loop (old new : Str) : Nat → Bool → Str → Str
  | 0, _, s => s
  | n + 1, first, s =>
    let j : Nat :=
      if old = [] then (if first then 0 else 1)
      else (Index s old).getD 0
    s.take j ++ new ++ Replace.loop old new n false (s.drop (j + old.length))

/-- The Go function `strings.Replace(s, old, new, n)`; a negative `n` lifts the limit on the
number of replacements. -/
def Replace (s old new : Str) (n : Int) : Str :=
  if old = new ∨ n = 0 then s
  else
    let m := Count s old
    if m = 0 then s
    else Replace.loop old new (if n < 0 ∨ (m : Int) < n then m else n.toNat) true s

/-- The routine `explode` of package `strings`: `s` cut into single characters, at most `n`
pieces, the last one holding the rest (`n > 0`). -/
def explode : Str → Nat → List Str
  | [], _ => []
  | _ :: _, 0 => []
  | c :: s, n + 1 => if n = 0 ∨ s = [] then [c :: s] else [c] :: explode s n

/-- The loop of `genSplit`: at most `n` cuts at occurrences of `sep`, then the rest. -/
def genSplit.loop (sep : Str) : Nat → Str → List Str
  | 0, s => [s]
  | n + 1, s =>
    match Index s sep with
    | none => [s]
    | some m => s.take m :: genSplit.loop sep n (s.drop (m + sep.length))

/-- The Go function `strings.SplitN(s, sep, n)`: `s` cut at `sep` into at most `n` pieces
(`n < 0`: no limit, `n = 0`: no piece at all). -/
def SplitN (s sep : Str) (n : Int) : List Str :=
  if n = 0 then []
  else if sep = [] then explode s (if n < 0 then s.length else n.toNat)
  else genSplit.loop sep ((if n < 0 then Count s sep + 1 else n.toNat) - 1) s

end strings

/-! ## Package `path` -/

namespace path

/-- The backward scan of the `..` case of `path.Clean`: from write position `w` (already
decremented once) retreat while `w > dotdot` and the character at `w` is not a slash. -/
def Clean.backtrack (buf : Str) (dotdot : Nat) : Nat → Nat
  | 0 => 0
  | w + 1 => if dotdot < w + 1 ∧ buf.getD (w + 1) '/' ≠ '/' then Clean.backtrack buf dotdot w
             else w + 1

/-- Whether `path.Clean` writes a slash before copying a path element: the buffer then holds
more than the root slash (rooted path) or is not empty (relative path). -/
def Clean.needSlash (rooted : Bool) (out : Str) : Bool :=
  (rooted && out.length != 1) || (!rooted && out.length != 0)

/-- The writes of the default case of `path.Clean`: a slash if one is needed, then the text
`s` of the element. -/
def Clean.put (rooted : Bool) (out s : Str) : Str :=
  (if Clean.needSlash rooted out then out ++ ['/'] else out) ++ s

/-- The main loop of `path.Clean` over the unread part of the path; `out` is the text written
so far and `dotdot` the position a `..` element may not retreat past. `inElem` tells that an
ordinary path element is being copied (the inner copying loop of the source); otherwise the
next element is classified: an empty one, `.`, `..`, or an ordinary one. -/
def Clean.loop (rooted : Bool) : Bool → Str → Str → Nat → Str
  | _, [], out, _ => out
  | true, c :: rest, out, dotdot =>
    if c = '/' then Clean.loop rooted false rest out dotdot
    else Clean.loop rooted true rest (out ++ [c]) dotdot
  | false, [c], out, dotdot =>
    if c = '/' then Clean.loop rooted false [] out dotdot
    else if c = '.' then Clean.loop rooted false [] out dotdot
    else Clean.loop rooted true [] (Clean.put rooted out [c]) dotdot
  | false, c :: c2 :: rest2, out, dotdot =>
    if c = '/' then Clean.loop rooted false (c2 :: rest2) out dotdot
    else if c = '.' ∧ c2 = '/' then Clean.loop rooted false (c2 :: rest2) out dotdot
    else if c = '.' ∧ c2 = '.' ∧ (rest2 = [] ∨ rest2.head? = some '/') then
      if dotdot < out.length then
        Clean.loop rooted false rest2
          (out.take (Clean.backtrack out dotdot (out.length - 1))) dotdot
      else if !rooted then
        let out2 := (if 0 < out.length then out ++ ['/'] else out) ++ ['.', '.']
        Clean.loop rooted false rest2 out2 out2.length
      else Clean.loop rooted false rest2 out dotdot
    else Clean.loop rooted true (c2 :: rest2) (Clean.put rooted out [c]) dotdot

/-- The Go function `path.Clean`: the shortest path name equivalent to `path` by purely lexical
processing. -/
def Clean (path : Str) : Str :=
  if path = [] then ['.']
  else
    let rooted : Bool := path.head? == some '/'
    let out := if rooted then Clean.loop rooted false (path.drop 1) ['/'] 1
               else Clean.loop rooted false path [] 0
    if out.length = 0 then ['.'] else out

/-- The routine `LastIndexByteString`: the position of the last `c` in `s`, if any. -/
def LastIndexByte : Str → Char → Option Nat
  | [], _ => none
  | x :: s, c =>
    match LastIndexByte s c with
    | some i => some (i + 1)
    | none => if x = c then some 0 else none

/-- The Go function `path.Split`: `path` cut right after its final slash. -/
def Split (path : Str) : Str × Str :=
  match LastIndexByte path '/' with
  | some i => (path.take (i + 1), path.drop (i + 1))
  | none => ([], path)

/-- The buffer loop of `path.Join`: elements are appended with a slash between them, empty
elements being skipped as long as the buffer is empty. -/
def Join.loop : List Str → Str → Str
  | [], buf => buf
  | e :: elem, buf =>
    if 0 < buf.length ∨ e ≠ [] then
      Join.loop elem ((if 0 < buf.length then buf ++ ['/'] else buf) ++ e)
    else Join.loop elem buf

/-- The Go function `path.Join`: the elements joined by slashes and cleaned; the empty string
when all elements are empty. -/
def Join (elem : List Str) : Str :=
  if (elem.map List.length).sum = 0 then []
  else Clean (Join.loop elem [])

/-- The backward scan of `path.Ext` over the reversed path: stops at a slash, returns the
suffix starting at the first dot met. -/
def Ext.loop : Str → Str → Str
  | [], _ => []
  | c :: rev, acc =>
    if c = '/' then []
    else if c = '.' then c :: acc
    else Ext.loop rev (c :: acc)

/-- The Go function `path.Ext`: the suffix of `path` beginning at the final dot of its final
element, empty if there is no dot. -/
def Ext (path : Str) : Str :=
  Ext.loop path.reverse []

/-- The Go function `path.Base`: the last element of `path`, trailing slashes removed first;
`.` for the empty path and `/` for a path of slashes only. -/
def Base (path : Str) : Str :=
  if path = [] then ['.']
  else
    let p1 := path.rdropWhile (fun c => c = '/')
    let p2 := match LastIndexByte p1 '/' with
      | some i => p1.drop (i + 1)
      | none => p1
    if p2 = [] then ['/'] else p2

/-- The Go function `path.Dir`: all but the last element of `path`, cleaned. -/
def Dir (path : Str) : Str :=
  Clean (Split path).1

end path

/-! ## Collaborators of the handler -/

/-- The result of a successful `os.Stat`, reduced to what `isFile` reads of it. -/
structure FileInfo where
  /-- Whether the name denotes a directory. -/
  IsDir : Bool

/-- A state of the file system as the handler observes it. -/
structure FS where
  /-- The call `os.Stat`; `none` is an error (no such file, no access). -/
  Stat : Str → Option FileInfo
  /-- The call `ioutil.ReadFile`; `none` is an error. -/
  ReadFile : Str → Option Str

/-- A non-nil Go `map[string]string` as a list of bindings; the first binding of a key is the
one in force, so adding a binding in front assigns to the key. -/
abbrev Catalog := List (Str × Str)

/-- The length of a Go map: its number of keys; a nil map (`none`) has none. -/
def mapLen : Option Catalog → Nat
  | none => 0
  | some m => (m.map Prod.fst).dedup.length

/-- Reading a Go map at a key: the zero value (empty string) when the key is absent or the map
is nil. -/
def mapIndex (m : Option Catalog) (key : Str) : Str :=
  match m with
  | none => []
  | some m => (m.lookup key).getD []

/-- The libraries and embedded resources of the handler. -/
structure Lib where
  /-- The call `yaml.Unmarshal(data, &versions)` into a fresh empty map: the map afterwards
  (whatever bindings the decoder stored; errors are ignored by the caller). -/
  yamlUnmarshal : Str → Catalog
  /-- The call `blackfriday.Markdown` with the renderer and extensions fixed in `GetContent`. -/
  Markdown : Str → Str
  /-- The placeholder document `source.Default`. -/
  sourceDefault : Str
  /-- The stylesheet `assets.Index`. -/
  assetsIndex : Str

/-- The configuration of a handler. -/
structure Handler where
  DefaultVersionName : Str
  DocsDir : Str
  PrefixUri : Str

/-- The handler `DefaultHandler`. -/
def DefaultHandler : Handler :=
  { DefaultVersionName := "default".toList
    DocsDir := "storage/docs".toList
    PrefixUri := "docs".toList }

/-- The values handed to the page template by `Handle`. -/
structure TemplateData where
  css : Str
  sidebar : Str
  content : Str
  versions : Option Catalog
  current_version : Str
  current_version_title : Str
  prefix_uri : Str
  basePath : Str
  contentFileName : Str
  default_version_name : Str
deriving DecidableEq

/-! ## The handler -/

/-- The function `isFile`: the name can be stat-ed and is not a directory. -/
def isFile (fs : FS) (p : Str) : Bool :=
  match fs.Stat p with
  | none => false
  | some f => !f.IsDir

/-- The function `yamlParseFile`: the file decoded into a fresh map, read and decode errors
ignored (an unreadable file is decoded as no data). -/
def yamlParseFile (lib : Lib) (fs : FS) (p : Str) : Catalog :=
  lib.yamlUnmarshal ((fs.ReadFile p).getD [])

/-- The method `Handler.GetStorageFilePath`. -/
def Handler.GetStorageFilePath (h : Handler) (name : Str) : Str :=
  path.Join [h.DocsDir, name]

/-- The title given to a synthesized `default` entry. -/
def placeholderTitle : Str := "默认版本".toList

/-- The method `Handler.GetVersion`; `none` is the nil map. -/
def Handler.GetVersion (h : Handler) (lib : Lib) (fs : FS) (version : Str) : Option Catalog :=
  let p := h.GetStorageFilePath "versions.yml".toList
  if !isFile fs p then some []
  else
    let versions := yamlParseFile lib fs p
    match versions.lookup version with
    | none => none
    | some _ =>
      match versions.lookup "default".toList with
      | none => some (("default".toList, placeholderTitle) :: versions)
      | some _ => some versions

/-- The name of the Markdown file `GetContent` reads (the first half of the method). -/
def Handler.GetContentPath (h : Handler) (version p : Str) : Str :=
  let version := if version = h.DefaultVersionName then [] else version
  h.GetStorageFilePath
    (path.Join [version, "_source".toList, strings.TrimSuffix p (path.Ext p)]) ++ ".md".toList

/-- The second half of `Handler.GetContent`: the bytes of the file `p`, or the placeholder
document when `p` is not a file, rendered from Markdown (a read error leaves no bytes). -/
def renderFile (lib : Lib) (fs : FS) (p : Str) : Str :=
  let content := if !isFile fs p then lib.sourceDefault else (fs.ReadFile p).getD []
  lib.Markdown content

/-- The method `Handler.GetContent`. -/
def Handler.GetContent (h : Handler) (lib : Lib) (fs : FS) (version p : Str) : Str :=
  renderFile lib fs (h.GetContentPath version p)

/-- The method `Handler.GetSidebar`. -/
def Handler.GetSidebar (h : Handler) (fs : FS) (version : Str) : Str :=
  let p := "sidebar.yml".toList
  let p := if version ≠ h.DefaultVersionName then version ++ "/".toList ++ p else p
  let p := h.GetStorageFilePath p
  if !isFile fs p then [] else (fs.ReadFile p).getD []

/-- The document path `Handle` derives from a request. -/
structure Resolved where
  version : Str
  baseName : Str
  dirName : Str
deriving DecidableEq

/-- The version candidate of a request (`v` in `Handle`, lines 45 to 55): the first piece of
the request's directory cut at slashes, the whole name should there be no piece. -/
def Handler.candidate (name : Str) : Str :=
  let dname := path.Dir name
  let dname := if dname = ".".toList then "/".toList else dname
  let fragment := strings.SplitN (strings.Trim dname "/".toList) "/".toList 2
  match fragment with
  | [] => name
  | v :: _ => v

/-- The first part of `Handler.Handle` (lines 36 to 67): the request name resolved to version,
base name and directory; `v` is computed by `Handler.candidate`. -/
def Handler.resolve (h : Handler) (lib : Lib) (fs : FS) (name : Str) : Resolved :=
  let version := h.DefaultVersionName
  let baseName := "index.html".toList
  let dirName : Str := []
  if 0 < name.length then
    let bname := path.Base name
    let fext := path.Ext name
    let fname := strings.TrimSuffix bname fext
    let dname := path.Dir name
    let dname := if dname = ".".toList then "/".toList else dname
    let v := Handler.candidate name
    let versions := h.GetVersion lib fs v
    let version := if 0 < mapLen versions then v else version
    let dirName := strings.Replace dname version [] (-1)
    let baseName :=
      if version ≠ fname ∧ bname ≠ [] ∧ bname ≠ "/".toList then bname else baseName
    { version := version, baseName := baseName, dirName := dirName }
  else { version := version, baseName := baseName, dirName := dirName }

/-- The second part of `Handler.Handle` (lines 69 to 103): the values the page template is
executed with. -/
def Handler.HandleData (h : Handler) (lib : Lib) (fs : FS) (name : Str) : TemplateData :=
  let r := h.resolve lib fs name
  let version := r.version
  let versions := h.GetVersion lib fs version
  let sidebar := h.GetSidebar fs version
  let contentFileName := path.Join [r.dirName, r.baseName]
  let content := h.GetContent lib fs version contentFileName
  let currentVersionTitle :=
    if version.length = 0 then mapIndex versions h.DefaultVersionName
    else mapIndex versions version
  let version := if version = h.DefaultVersionName then [] else version
  { css := lib.assetsIndex
    sidebar := sidebar
    content := content
    versions := versions
    current_version := version
    current_version_title := currentVersionTitle
    prefix_uri := path.Join ["/".toList, h.PrefixUri] ++ "/".toList
    basePath := path.Join ["/".toList, h.PrefixUri, version] ++ "/".toList
    contentFileName := strings.TrimLeft contentFileName "/".toList
    default_version_name := h.DefaultVersionName }

/-- The method `Handler.Handle`: the page template (`views.Index`, executed by `execute`)
filled with `HandleData`. -/
def Handler.Handle (h : Handler) (lib : Lib) (fs : FS) (execute : TemplateData → Str)
    (name : Str) : Str :=
  execute (h.HandleData lib fs name)

end Gdoc

/-! ## Vocabulary of the statements -/

namespace Gdoc

/-- A plain path segment: not empty, without a slash, and neither `.` nor `..`. -/
def plainSeg (s : Str) : Prop :=
  s ≠ [] ∧ '/' ∉ s ∧ s ≠ ['.'] ∧ s ≠ ['.', '.']

instance (s : Str) : Decidable (plainSeg s) := by
  unfold plainSeg; exact inferInstance

/-- The segments written one after the other, each preceded by a slash. -/
def slashJoin : List Str → Str
  | [] => []
  | s :: t => '/' :: (s ++ slashJoin t)

/-- A relative path of the segments `s`, `t₁`, ..., `tₖ`, separated by single slashes. -/
def segPath (s : Str) (t : List Str) : Str :=
  s ++ slashJoin t

/-- The directory `dname` with only its leading segment `v` removed (leading slashes kept):
the reading of "the version is stripped from the directory" as an anchored removal. -/
def stripLeadingSegment (dname v : Str) : Str :=
  let body := dname.dropWhile (fun c => c = '/')
  dname.takeWhile (fun c => c = '/') ++ (if v.isPrefixOf body then body.drop v.length else body)

/-- The directory part of a request: the plain segments `dirs` separated by slashes. -/
def reqDir : List Str → Str
  | [] => []
  | d :: ds => segPath d ds

/-- The request path of the file `f` in the directory `dirs`. -/
def reqPath (dirs : List Str) (f : Str) : Str :=
  match dirs with
  | [] => f
  | d :: ds => segPath d ds ++ '/' :: f

/-- The segments of a path: the texts between its slashes. -/
def segments : Str → List Str
  | [] => [[]]
  | c :: s =>
    if c = '/' then [] :: segments s
    else
      match segments s with
      | [] => [[c]]
      | x :: t => (c :: x) :: t

/-- The lexical effect of one path segment on a path read so far, kept as the number of
leading `..` segments and the ordinary segments after them, last one first: empty and `.`
segments change nothing, `..` removes the last ordinary segment, or is kept in front of a
relative path, or is dropped at the root, and any other segment is added. -/
def segStep (rooted : Bool) (st : Nat × List Str) (s : Str) : Nat × List Str :=
  if s = [] ∨ s = ['.'] then st
  else if s = ['.', '.'] then
    match st.2 with
    | _ :: rest => (st.1, rest)
    | [] => if rooted then st else (st.1 + 1, [])
  else (st.1, s :: st.2)

/-- The segments of a path read so far, in order. -/
def segList (st : Nat × List Str) : List Str :=
  List.replicate st.1 ['.', '.'] ++ st.2.reverse

/-- The text of a path of the segments `L`, rooted or relative. -/
def renderSegs (rooted : Bool) (L : List Str) : Str :=
  if rooted then '/' :: reqDir L else reqDir L

/-- The shortest equivalent of a path given by its segments: what `path.Clean` computes, told
on segments. -/
def cleanSegs (rooted : Bool) (T : List Str) : Str :=
  if renderSegs rooted (segList (T.foldl (segStep rooted) (0, []))) = [] then ['.']
  else renderSegs rooted (segList (T.foldl (segStep rooted) (0, [])))

/-- The position behind the leading `..` segments of a path read so far: the value of
`dotdot` in `path.Clean`. -/
def dotdotOf (rooted : Bool) (st : Nat × List Str) : Nat :=
  if rooted then 1 else (reqDir (List.replicate st.1 ['.', '.'])).length

/-- What `path.Clean` maintains of a path read so far: a rooted path has no leading `..`, and
the ordinary segments are plain. -/
def segValid (rooted : Bool) (st : Nat × List Str) : Prop :=
  (rooted = true → st.1 = 0) ∧ ∀ s ∈ st.2, plainSeg s

/-- Two runs of segments are lexically equivalent when they act alike on every path read so
far. -/
def segEquiv (L1 L2 : List Str) : Prop :=
  ∀ (rooted : Bool) (st : Nat × List Str),
    L1.foldl (segStep rooted) st = L2.foldl (segStep rooted) st

/-- The directory of a request as `Handle` takes it (lines 45 to 48): `path.Dir`, with `/` in
place of `.`. -/
def requestDir (name : Str) : Str :=
  if path.Dir name = ".".toList then "/".toList else path.Dir name

/-- A path climbs when, read as a relative path, it leaves its starting directory through
`..`: the first segment of `path.Join(".", q)` is `..`. -/
def climbs (q : Str) : Prop :=
  (segments (path.Join [['.'], q])).head? = some ['.', '.']

instance (q : Str) : Decidable (climbs q) := by
  unfold climbs; exact inferInstance

/-- A rooted path escapes its root when it climbs, as `/../x` does: `path.Clean` drops such
a `..`, while a path put in front of it would lose a segment to it. -/
def escapesRoot (q : Str) : Prop :=
  q.head? = some '/' ∧ climbs q

instance (q : Str) : Decidable (escapesRoot q) := by
  unfold escapesRoot; exact inferInstance

/-- The source directory of a version: `<DocsDir>/<version>/_source`, and `<DocsDir>/_source`
for the default version. -/
def Handler.sourceDir (h : Handler) (version : Str) : Str :=
  if version = h.DefaultVersionName then path.Join [h.DocsDir, "_source".toList]
  else path.Join [h.DocsDir, version, "_source".toList]

/-- The Go test `_, ok := m[key]`: whether the map binds the key. -/
def mapHas (m : Option Catalog) (key : Str) : Bool :=
  match m with
  | none => false
  | some m => (m.lookup key).isSome

/-- The name of the version catalog file of a handler. -/
def Handler.versionsFile (h : Handler) : Str :=
  h.GetStorageFilePath "versions.yml".toList

/-- The reference reading of `GetVersion`, in the words of the specification: no catalog file,
the empty catalog; an identifier that is no key of the parsed mapping, the nil signal;
otherwise the parsed mapping, with a `default` entry of placeholder title added exactly when
it had none. -/
def Handler.GetVersionRef (h : Handler) (lib : Lib) (fs : FS) (identifier : Str) :
    Option Catalog :=
  let file := path.Join [h.DocsDir, "versions.yml".toList]
  if isFile fs file = false then some []
  else
    let parsed := lib.yamlUnmarshal ((fs.ReadFile file).getD [])
    if identifier ∉ parsed.map Prod.fst then none
    else if "default".toList ∈ parsed.map Prod.fst then some parsed
    else some (("default".toList, placeholderTitle) :: parsed)

/-! ## A documentation tree for the examples -/

/-- The bytes of the example `versions.yml`. -/
def exVersionsYml : Str := "v2: \"Version 2\"\n".toList

/-- Example libraries: the decoder knows the example catalog, the renderer wraps its input in
a paragraph. -/
def exLib : Lib where
  yamlUnmarshal := fun data =>
    if data = exVersionsYml then [("v2".toList, "Version 2".toList)] else []
  Markdown := fun text => "<p>".toList ++ text ++ "</p>".toList
  sourceDefault := "# Not found".toList
  assetsIndex := []

/-- Example file system: `storage/docs` holds `versions.yml` and the page `guide` of `v2`. -/
def exFS : FS where
  Stat := fun p =>
    if p = "storage/docs/versions.yml".toList then some { IsDir := false }
    else if p = "storage/docs/v2/_source/guide.md".toList then some { IsDir := false }
    else if p = "storage/docs".toList then some { IsDir := true }
    else none
  ReadFile := fun p =>
    if p = "storage/docs/versions.yml".toList then some exVersionsYml
    else if p = "storage/docs/v2/_source/guide.md".toList then some "Hello".toList
    else none

/-- Example file system without any file. -/
def exEmptyFS : FS where
  Stat := fun _ => none
  ReadFile := fun _ => none

end Gdoc

/-! ## Lemmas on `path.Clean` -/

namespace Gdoc.path

theorem Clean_loop_false_one (rooted : Bool) (c : Char) (out : Str) (dotdot : Nat) :
    Clean.loop rooted false [c] out dotdot
      = if c = '/' then out else if c = '.' then out else Clean.put rooted out [c] := by
  simp [Clean.loop]

theorem Clean_loop_false_two (rooted : Bool) (c c2 : Char) (rest2 out : Str) (dotdot : Nat) :
    Clean.loop rooted false (c :: c2 :: rest2) out dotdot
      = if c = '/' then Clean.loop rooted false (c2 :: rest2) out dotdot
        else if c = '.' ∧ c2 = '/' then Clean.loop rooted false (c2 :: rest2) out dotdot
        else if c = '.' ∧ c2 = '.' ∧ (rest2 = [] ∨ rest2.head? = some '/') then
          if dotdot < out.length then
            Clean.loop rooted false rest2
              (out.take (Clean.backtrack out dotdot (out.length - 1))) dotdot
          else if !rooted then
            Clean.loop rooted false rest2
              ((if 0 < out.length then out ++ ['/'] else out) ++ ['.', '.'])
              ((if 0 < out.length then out ++ ['/'] else out) ++ ['.', '.']).length
          else Clean.loop rooted false rest2 out dotdot
        else Clean.loop rooted true (c2 :: rest2) (Clean.put rooted out [c]) dotdot := by
  conv_lhs => rw [Clean.loop]

theorem Clean_loop_nil (rooted inElem : Bool) (out : Str) (dotdot : Nat) :
    Clean.loop rooted inElem [] out dotdot = out := by
  cases inElem <;> simp [Clean.loop]

theorem Clean_loop_slash (rooted inElem : Bool) (rest out : Str) (dotdot : Nat) :
    Clean.loop rooted inElem ('/' :: rest) out dotdot = Clean.loop rooted false rest out dotdot := by
  cases inElem
  · cases rest <;> simp [Clean.loop]
  · simp [Clean.loop]

/-- At an element boundary the copying mode and the classifying mode continue alike. -/
theorem Clean_loop_boundary (rooted : Bool) (R out : Str) (dotdot : Nat)
    (hR : R = [] ∨ R.head? = some '/') :
    Clean.loop rooted true R out dotdot = Clean.loop rooted false R out dotdot := by
  rcases hR with rfl | hR
  · simp [Clean_loop_nil]
  · cases R with
    | nil => simp at hR
    | cons c R =>
      simp at hR; subst hR
      simp [Clean_loop_slash]

/-- The copying mode appends a slash-free text to the buffer. -/
theorem Clean_loop_copy (rooted : Bool) (t : Str) (ht : '/' ∉ t) (R out : Str) (dotdot : Nat) :
    Clean.loop rooted true (t ++ R) out dotdot = Clean.loop rooted true R (out ++ t) dotdot := by
  induction t generalizing out with
  | nil => simp
  | cons c t ih =>
    have hc : c ≠ '/' := fun h => ht (by simp [h])
    have ht2 : '/' ∉ t := fun h => ht (by simp [h])
    have h1 : (c :: t) ++ R = c :: (t ++ R) := rfl
    rw [h1]
    simp only [Clean.loop, if_neg hc]
    rw [ih ht2]
    simp

/-- A plain segment, followed by a boundary, is copied as an ordinary element. -/
theorem Clean_loop_plainSeg (rooted : Bool) (s : Str) (hs : plainSeg s) (R out : Str)
    (dotdot : Nat) (hR : R = [] ∨ R.head? = some '/') :
    Clean.loop rooted false (s ++ R) out dotdot
      = Clean.loop rooted false R (Clean.put rooted out s) dotdot := by
  obtain ⟨hne, hsl, hdot, hdd⟩ := hs
  rw [← Clean_loop_boundary rooted R _ dotdot hR]
  cases s with
  | nil => exact absurd rfl hne
  | cons c s =>
    have hc : c ≠ '/' := fun h => hsl (by simp [h])
    have hs2 : '/' ∉ s := fun h => hsl (by simp [h])
    cases s with
    | nil =>
      have hcd : c ≠ '.' := fun h => hdot (by simp [h])
      cases R with
      | nil => simp [Clean.loop, hc, hcd, Clean.put]
      | cons r R =>
        simp [Clean.loop, hc, hcd, Clean.put]
    | cons c2 s =>
      have hc2 : c2 ≠ '/' := fun h => hs2 (by simp [h])
      have hs3 : '/' ∉ s := fun h => hs2 (by simp [h])
      have hcond : ¬ (c = '.' ∧ c2 = '.' ∧ (s ++ R = [] ∨ (s ++ R).head? = some '/')) := by
        rintro ⟨h1, h2, h3⟩
        cases s with
        | nil => exact hdd (by simp [h1, h2])
        | cons c3 s =>
          have hc3 : c3 ≠ '/' := fun h => hs3 (by simp [h])
          simp at h3
          exact hc3 h3
      have step : Clean.loop rooted false (c :: c2 :: (s ++ R)) out dotdot
          = Clean.loop rooted true (c2 :: (s ++ R)) (Clean.put rooted out [c]) dotdot := by
        simp only [Clean.loop, if_neg hc]
        rw [if_neg (by simp [hc2]), if_neg hcond]
      have : (c :: c2 :: s) ++ R = c :: c2 :: (s ++ R) := by simp
      rw [this, step]
      have h2 : c2 :: (s ++ R) = (c2 :: s) ++ R := by simp
      rw [h2, Clean_loop_copy rooted (c2 :: s) hs2]
      simp [Clean.put]

theorem Clean_needSlash_put (rooted : Bool) (out s : Str) (hs : s ≠ []) :
    Clean.needSlash rooted (Clean.put rooted out s) = true := by
  have hlen : 0 < s.length := List.length_pos.mpr hs
  cases rooted <;> by_cases h : out.length = 1 <;> by_cases h0 : out.length = 0 <;>
    simp [Clean.needSlash, Clean.put, h, h0] <;> first | exact hs | omega

/-- A run of plain segments, each preceded by a slash, is copied as it stands once the buffer
calls for separating slashes. -/
theorem Clean_loop_slashJoin (rooted : Bool) (segs : List Str) (hsegs : ∀ s ∈ segs, plainSeg s)
    (R out : Str) (dotdot : Nat) (hR : R = [] ∨ R.head? = some '/')
    (hout : Clean.needSlash rooted out = true) :
    Clean.loop rooted false (slashJoin segs ++ R) out dotdot
      = Clean.loop rooted false R (out ++ slashJoin segs) dotdot := by
  induction segs generalizing out with
  | nil => simp [slashJoin]
  | cons s t ih =>
    have hs : plainSeg s := hsegs s (by simp)
    have ht : ∀ x ∈ t, plainSeg x := fun x hx => hsegs x (by simp [hx])
    have h1 : slashJoin (s :: t) ++ R = '/' :: (s ++ (slashJoin t ++ R)) := by
      simp [slashJoin]
    have hR2 : slashJoin t ++ R = [] ∨ (slashJoin t ++ R).head? = some '/' := by
      cases t with
      | nil => simpa [slashJoin] using hR
      | cons a t => right; simp [slashJoin]
    rw [h1, Clean_loop_slash, Clean_loop_plainSeg rooted s hs _ _ _ hR2,
      ih ht _ (Clean_needSlash_put rooted out s hs.1)]
    simp [Clean.put, hout, slashJoin]

theorem plainSeg_head_ne_slash {s : Str} (hs : plainSeg s) : s.head? ≠ some '/' := by
  obtain ⟨hne, hsl, -, -⟩ := hs
  cases s with
  | nil => simp
  | cons c s =>
    simp only [List.head?_cons, ne_eq, Option.some.injEq]
    intro h
    exact hsl (by simp [h])

/-- A relative path of plain segments is its own cleaned form. -/
theorem Clean_segPath (s : Str) (t : List Str) (hs : plainSeg s) (ht : ∀ x ∈ t, plainSeg x) :
    Clean (segPath s t) = segPath s t := by
  have hne : segPath s t ≠ [] := by
    simp [segPath, hs.1]
  have hhead : (segPath s t).head? ≠ some '/' := by
    have := plainSeg_head_ne_slash hs
    cases s with
    | nil => exact absurd rfl hs.1
    | cons c s => simpa [segPath] using this
  have hR2 : slashJoin t ++ [] = [] ∨ (slashJoin t ++ []).head? = some '/' := by
    cases t with
    | nil => simp [slashJoin]
    | cons a t => right; simp [slashJoin]
  have hrun : Clean.loop false false (segPath s t) [] 0 = segPath s t := by
    have h1 : segPath s t = s ++ (slashJoin t ++ []) := by simp [segPath]
    rw [h1, Clean_loop_plainSeg false s hs _ _ _ hR2,
      Clean_loop_slashJoin false t ht [] _ 0 (Or.inl rfl)
        (Clean_needSlash_put false [] s hs.1), Clean_loop_nil]
    simp [Clean.put, Clean.needSlash]
  unfold Clean
  rw [if_neg hne]
  have hb : ((segPath s t).head? == some '/') = false := by
    simpa using hhead
  simp only [hb, Bool.false_eq_true, if_false, hrun]
  simp [hne]

/-- A slash at the end of the unread path changes nothing. -/
theorem Clean_loop_trailing_slash (rooted : Bool) (n : Nat) :
    ∀ (x : Str), x.length ≤ n → ∀ (inElem : Bool) (out : Str) (dotdot : Nat),
      Clean.loop rooted inElem (x ++ ['/']) out dotdot = Clean.loop rooted inElem x out dotdot := by
  induction n with
  | zero =>
    intro x hx inElem out dotdot
    have : x = [] := List.length_eq_zero.mp (Nat.le_zero.mp hx)
    subst this
    simp [Clean_loop_slash, Clean_loop_nil]
  | succ n ih =>
    intro x hx inElem out dotdot
    cases x with
    | nil => simp [Clean_loop_slash, Clean_loop_nil]
    | cons c x =>
      have hx1 : x.length ≤ n := by simpa using hx
      cases inElem with
      | true =>
        have h1 : (c :: x) ++ ['/'] = c :: (x ++ ['/']) := rfl
        rw [h1]
        simp only [Clean.loop]
        rw [ih x hx1, ih x hx1]
      | false =>
        cases x with
        | nil =>
          have h1 : ([c] : Str) ++ ['/'] = c :: '/' :: [] := rfl
          rw [h1]
          simp only [Clean.loop]
          by_cases hc : c = '/'
          · simp [hc, Clean_loop_nil, Clean_loop_slash]
          · by_cases hd : c = '.'
            · simp [hd, Clean_loop_nil, Clean_loop_slash]
            · simp [hc, hd, Clean_loop_nil, Clean_loop_slash]
        | cons c2 x =>
          have hx2 : x.length ≤ n := by
            simp at hx1; omega
          have h1 : (c :: c2 :: x) ++ ['/'] = c :: c2 :: (x ++ ['/']) := rfl
          have h2 : c2 :: (x ++ ['/']) = (c2 :: x) ++ ['/'] := rfl
          have hcond : (x ++ ['/'] = [] ∨ (x ++ ['/']).head? = some '/')
              ↔ (x = [] ∨ x.head? = some '/') := by
            cases x <;> simp
          rw [h1]
          simp only [Clean.loop, hcond]
          rw [h2]
          simp only [ih (c2 :: x) hx1, ih x hx2]

/-- The Go function `path.Clean` ignores one trailing slash. -/
theorem Clean_trailing_slash (x : Str) (hx : x ≠ []) : Clean (x ++ ['/']) = Clean x := by
  cases x with
  | nil => exact absurd rfl hx
  | cons c x =>
    unfold Clean
    have h1 : (c :: x) ++ ['/'] = c :: (x ++ ['/']) := rfl
    rw [h1]
    simp only [List.cons_ne_nil, if_false, List.head?_cons, List.drop_succ_cons, List.drop_zero]
    rw [Clean_loop_trailing_slash _ _ x (le_refl _)]
    have h2 : c :: (x ++ ['/']) = (c :: x) ++ ['/'] := rfl
    rw [h2, Clean_loop_trailing_slash _ _ (c :: x) (le_refl _)]

theorem Clean_backtrack_ge (buf : Str) (dotdot w : Nat) (h : dotdot ≤ w) :
    dotdot ≤ Clean.backtrack buf dotdot w := by
  induction w with
  | zero => simpa [Clean.backtrack] using h
  | succ w ih =>
    unfold Clean.backtrack
    split
    · rename_i hc
      exact ih (by omega)
    · exact h

theorem head?_take_of_pos (l : Str) (k : Nat) (hk : 1 ≤ k) : (l.take k).head? = l.head? := by
  cases l with
  | nil => simp
  | cons a l =>
    obtain ⟨k, rfl⟩ : ∃ j, k = j + 1 := ⟨k - 1, by omega⟩
    simp

theorem head?_append_of_head? (l r : Str) (c : Char) (h : l.head? = some c) :
    (l ++ r).head? = some c := by
  cases l with
  | nil => simp at h
  | cons a l => simpa using h

/-- On a rooted path the buffer keeps its leading slash. -/
theorem Clean_loop_rooted_head (n : Nat) :
    ∀ (x : Str), x.length ≤ n → ∀ (inElem : Bool) (out : Str) (dotdot : Nat),
      out.head? = some '/' → 1 ≤ dotdot →
      (Clean.loop true inElem x out dotdot).head? = some '/' := by
  induction n with
  | zero =>
    intro x hx inElem out dotdot hout _
    have : x = [] := List.length_eq_zero.mp (Nat.le_zero.mp hx)
    subst this
    simpa [Clean_loop_nil] using hout
  | succ n ih =>
    intro x hx inElem out dotdot hout hdd
    cases x with
    | nil => simpa [Clean_loop_nil] using hout
    | cons c x =>
      have hx1 : x.length ≤ n := by simpa using hx
      cases inElem with
      | true =>
        simp only [Clean.loop]
        split
        · exact ih x hx1 _ _ _ hout hdd
        · exact ih x hx1 _ _ _ (head?_append_of_head? _ _ _ hout) hdd
      | false =>
        have hput : ∀ s : Str, (Clean.put true out s).head? = some '/' := by
          intro s
          unfold Clean.put
          split
          · exact head?_append_of_head? _ _ _ (head?_append_of_head? _ _ _ hout)
          · exact head?_append_of_head? _ _ _ hout
        cases x with
        | nil =>
          simp only [Clean.loop]
          split
          · exact hout
          · split
            · exact hout
            · exact hput _
        | cons c2 x =>
          have hx2 : x.length ≤ n := by
            simp at hx1; omega
          rw [Clean_loop_false_two]
          split
          · exact ih _ hx1 _ _ _ hout hdd
          · split
            · exact ih _ hx1 _ _ _ hout hdd
            · split
              · split
                · rename_i hlt
                  refine ih _ hx2 _ _ _ ?_ hdd
                  rw [head?_take_of_pos _ _ ?_]
                  · exact hout
                  · exact le_trans hdd (Clean_backtrack_ge _ _ _ (by omega))
                · simp only [Bool.not_true, Bool.false_eq_true, if_false]
                  exact ih _ hx2 _ _ _ hout hdd
              · exact ih _ hx1 _ _ _ (hput _) hdd

/-- The cleaned form of a rooted path is rooted. -/
theorem Clean_rooted_head (x : Str) (hx : x.head? = some '/') :
    (Clean x).head? = some '/' := by
  cases x with
  | nil => simp at hx
  | cons c x =>
    simp only [List.head?_cons, Option.some.injEq] at hx
    subst hx
    have hrun := Clean_loop_rooted_head x.length x (le_refl _) false ['/'] 1 rfl (le_refl _)
    unfold Clean
    simp only [List.cons_ne_nil, if_false, List.head?_cons, beq_self_eq_true, if_true,
      List.drop_succ_cons, List.drop_zero]
    split
    · rename_i h0
      rw [List.length_eq_zero.mp h0] at hrun
      simp at hrun
    · exact hrun

theorem Join_loop_head (elem : List Str) (buf : Str) (c : Char) (h : buf.head? = some c) :
    (Join.loop elem buf).head? = some c := by
  induction elem generalizing buf with
  | nil => simpa [Join.loop] using h
  | cons e elem ih =>
    have hpos : 0 < buf.length := by
      cases buf with
      | nil => simp at h
      | cons a b => simp
    simp only [Join.loop, hpos, true_or, if_true]
    exact ih _ (head?_append_of_head? _ _ _ (head?_append_of_head? _ _ _ h))

theorem Join_loop_root_head (elem : List Str) :
    (Join.loop (['/'] :: elem) []).head? = some '/' := by
  have h1 : Join.loop (['/'] :: elem) [] = Join.loop elem ['/'] := by
    simp [Join.loop]
  rw [h1]
  exact Join_loop_head _ _ _ rfl

/-- Joining onto the root slash gives a rooted path. -/
theorem Join_root_head (elem : List Str) : (Join (['/'] :: elem)).head? = some '/' := by
  unfold Join
  have hsum : ((['/'] :: elem).map List.length).sum ≠ 0 := by
    simp
  rw [if_neg hsum]
  exact Clean_rooted_head _ (Join_loop_root_head elem)

/-- A trailing empty element does not change a non-empty join. -/
theorem Join_loop_append_nil (elem : List Str) (buf : Str) :
    Join.loop (elem ++ [[]]) buf
      = if 0 < (Join.loop elem buf).length then Join.loop elem buf ++ ['/']
        else Join.loop elem buf := by
  induction elem generalizing buf with
  | nil =>
    by_cases h : 0 < buf.length <;> simp [Join.loop, h]
  | cons e elem ih =>
    simp only [List.cons_append, Join.loop]
    split
    · exact ih _
    · exact ih _

end Gdoc.path

/-! ## Lemmas on the string routines -/

namespace Gdoc.strings

theorem Index_nil_right (s : Str) : Index s [] = some 0 := by
  cases s <;> simp [Index]

theorem Index_self (v : Str) : Index v v = some 0 := by
  cases v with
  | nil => simp [Index]
  | cons c v => simp [Index]

theorem Index_nil_left (v : Str) (hv : v ≠ []) : Index [] v = none := by
  simp [Index, hv]

/-- A slash-free text holds no slash. -/
theorem Index_slash_none (s : Str) (hs : '/' ∉ s) : Index s ['/'] = none := by
  induction s with
  | nil => simp [Index]
  | cons c s ih =>
    have hc : c ≠ '/' := fun h => hs (by simp [h])
    have hs2 : '/' ∉ s := fun h => hs (by simp [h])
    have hp : List.isPrefixOf ['/'] (c :: s) = false := by
      simp [List.isPrefixOf, Ne.symm hc]
    simp [Index, hp, ih hs2]

/-- The first slash after a slash-free text. -/
theorem Index_slash_append (s R : Str) (hs : '/' ∉ s) :
    Index (s ++ '/' :: R) ['/'] = some s.length := by
  induction s with
  | nil => simp [Index, List.isPrefixOf]
  | cons c s ih =>
    have hc : c ≠ '/' := fun h => hs (by simp [h])
    have hs2 : '/' ∉ s := fun h => hs (by simp [h])
    have h1 : (c :: s) ++ '/' :: R = c :: (s ++ '/' :: R) := rfl
    have hp : List.isPrefixOf ['/'] (c :: (s ++ '/' :: R)) = false := by
      simp [List.isPrefixOf, Ne.symm hc]
    rw [h1]
    simp [Index, hp, ih hs2]

theorem Count_loop_nil (v : Str) (hv : v ≠ []) (fuel : Nat) : Count.loop v fuel [] = 0 := by
  cases fuel with
  | zero => rfl
  | succ n => simp [Count.loop, Index_nil_left v hv]

theorem Count_of_Index_none (s old : Str) (h : Index s old = none) : Count s old = 0 := by
  have hold : old ≠ [] := by
    intro h0
    rw [h0, Index_nil_right] at h
    exact absurd h (by simp)
  unfold Count
  rw [if_neg hold]
  cases hl : s.length with
  | zero => rfl
  | succ n => simp [Count.loop, h]

/-- Nothing is replaced where `old` does not occur. -/
theorem Replace_of_Index_none (s old new : Str) (n : Int) (h : Index s old = none) :
    Replace s old new n = s := by
  unfold Replace
  split
  · rfl
  · simp [Count_of_Index_none s old h]

/-- The empty `old` is not replaced by the empty `new`. -/
theorem Replace_nil_nil (s : Str) (n : Int) : Replace s [] [] n = s := by
  simp [Replace]

theorem Count_self (v : Str) (hv : v ≠ []) : Count v v = 1 := by
  unfold Count
  rw [if_neg hv]
  cases hl : v.length with
  | zero => exact absurd (List.length_eq_zero.mp hl) hv
  | succ n =>
    have hd : v.drop (n + 1) = [] := by
      rw [← hl]; exact List.drop_length v
    simp [Count.loop, Index_self, hl, hd, Count_loop_nil v hv]

/-- Removing every occurrence of a text from itself leaves nothing. -/
theorem Replace_self (v : Str) (hv : v ≠ []) : Replace v v [] (-1) = [] := by
  unfold Replace
  have h1 : ¬ (v = [] ∨ (-1 : Int) = 0) := by
    simp [hv]
  rw [if_neg h1]
  simp [Count_self v hv, Replace.loop, hv, Index_self]

theorem TrimLeft_slash_of_head (s : Str) (hs : s.head? ≠ some '/') : TrimLeft s ['/'] = s := by
  cases s with
  | nil => rfl
  | cons c s =>
    have hc : c ≠ '/' := by simpa using hs
    simp [TrimLeft, hc]

theorem TrimRight_slash_of_last (s : Str) (hs : s.getLast? ≠ some '/') :
    TrimRight s ['/'] = s := by
  unfold TrimRight
  rw [List.rdropWhile_eq_self_iff]
  intro hl
  have : s.getLast? = some (s.getLast hl) := List.getLast?_eq_getLast _ hl
  rw [this] at hs
  simpa using hs

/-- Trimming slashes leaves a text alone that neither begins nor ends with one. -/
theorem Trim_slash_of_ends (s : Str) (h1 : s.head? ≠ some '/') (h2 : s.getLast? ≠ some '/') :
    Trim s ['/'] = s := by
  unfold Trim
  rw [TrimLeft_slash_of_head s h1, TrimRight_slash_of_last s h2]

theorem HasSuffix_append (a suf : Str) : HasSuffix (a ++ suf) suf = true := by
  simp [HasSuffix]

theorem TrimSuffix_append (a suf : Str) : TrimSuffix (a ++ suf) suf = a := by
  unfold TrimSuffix
  rw [HasSuffix_append]
  simp

end Gdoc.strings

/-! ## Lemmas on `path.Split`, `path.Base`, `path.Ext` and `path.Join` -/

namespace Gdoc.path

theorem LastIndexByte_none (f : Str) (hf : '/' ∉ f) : LastIndexByte f '/' = none := by
  induction f with
  | nil => rfl
  | cons c f ih =>
    have hc : c ≠ '/' := fun h => hf (by simp [h])
    have hf2 : '/' ∉ f := fun h => hf (by simp [h])
    simp [LastIndexByte, ih hf2, hc]

theorem LastIndexByte_append (pre f : Str) (hf : '/' ∉ f) :
    LastIndexByte (pre ++ '/' :: f) '/' = some pre.length := by
  induction pre with
  | nil => simp [LastIndexByte, LastIndexByte_none f hf]
  | cons c pre ih =>
    have h1 : (c :: pre) ++ '/' :: f = c :: (pre ++ '/' :: f) := rfl
    rw [h1]
    simp [LastIndexByte, ih]

theorem Split_append (pre f : Str) (hf : '/' ∉ f) :
    Split (pre ++ '/' :: f) = (pre ++ ['/'], f) := by
  unfold Split
  rw [LastIndexByte_append pre f hf]
  have h1 : pre ++ '/' :: f = (pre ++ ['/']) ++ f := by simp
  have hlen : pre.length + 1 = (pre ++ ['/']).length := by simp
  simp only [h1, hlen, List.take_left', List.drop_left']

theorem Split_of_no_slash (f : Str) (hf : '/' ∉ f) : Split f = ([], f) := by
  unfold Split
  rw [LastIndexByte_none f hf]

/-- The directory of `pre/f`, for a file name `f` without a slash, is `pre` cleaned. -/
theorem Dir_append (pre f : Str) (hpre : pre ≠ []) (hf : '/' ∉ f) :
    Dir (pre ++ '/' :: f) = Clean pre := by
  unfold Dir
  rw [Split_append pre f hf]
  exact Clean_trailing_slash pre hpre

theorem Dir_of_no_slash (f : Str) (hf : '/' ∉ f) : Dir f = ['.'] := by
  unfold Dir
  rw [Split_of_no_slash f hf]
  rfl

theorem rdropWhile_slash_of_no_slash (f : Str) (hf : '/' ∉ f) (pre : Str) (hne : f ≠ []) :
    (pre ++ f).rdropWhile (fun c => decide (c = '/')) = pre ++ f := by
  rw [List.rdropWhile_eq_self_iff]
  intro hl
  rw [List.getLast_append_of_ne_nil hne]
  have hmem : f.getLast hne ∈ f := List.getLast_mem hne
  intro h
  simp only [decide_eq_true_eq] at h
  exact hf (h ▸ hmem)

/-- The base name of `pre/f`, for a non-empty file name `f` without a slash, is `f`. -/
theorem Base_append (pre f : Str) (hne : f ≠ []) (hf : '/' ∉ f) :
    Base (pre ++ '/' :: f) = f := by
  unfold Base
  have h0 : pre ++ '/' :: f ≠ [] := by simp
  rw [if_neg h0]
  have h1 : pre ++ '/' :: f = (pre ++ ['/']) ++ f := by simp
  have hr := rdropWhile_slash_of_no_slash f hf (pre ++ ['/']) hne
  simp only [h1, hr]
  rw [← h1, LastIndexByte_append pre f hf]
  have hlen : pre.length + 1 = (pre ++ ['/']).length := by simp
  simp only [h1, hlen, List.drop_left', hne, if_false]

theorem Base_of_no_slash (f : Str) (hne : f ≠ []) (hf : '/' ∉ f) : Base f = f := by
  unfold Base
  rw [if_neg hne]
  have hr := rdropWhile_slash_of_no_slash f hf [] hne
  simp only [List.nil_append] at hr
  simp only [hr, LastIndexByte_none f hf, hne, if_false]

theorem Ext_loop_stop (fr X acc : Str) (hf : '/' ∉ fr) :
    Ext.loop (fr ++ '/' :: X) acc = Ext.loop fr acc := by
  induction fr generalizing acc with
  | nil => simp [Ext.loop]
  | cons c fr ih =>
    have hc : c ≠ '/' := fun h => hf (by simp [h])
    have hf2 : '/' ∉ fr := fun h => hf (by simp [h])
    have h1 : (c :: fr) ++ '/' :: X = c :: (fr ++ '/' :: X) := rfl
    rw [h1]
    simp only [Ext.loop, if_neg hc]
    split
    · rfl
    · exact ih _ hf2

/-- The extension of `pre/f` is that of the file name `f`. -/
theorem Ext_append (pre f : Str) (hf : '/' ∉ f) : Ext (pre ++ '/' :: f) = Ext f := by
  unfold Ext
  have h1 : (pre ++ '/' :: f).reverse = f.reverse ++ '/' :: pre.reverse := by simp
  rw [h1]
  exact Ext_loop_stop _ _ _ (by simpa using hf)

theorem Ext_loop_suffix (rev acc : Str) :
    Ext.loop rev acc = [] ∨ ∃ k, Ext.loop rev acc = (rev.take k).reverse ++ acc := by
  induction rev generalizing acc with
  | nil => left; rfl
  | cons c rev ih =>
    simp only [Ext.loop]
    split
    · left; rfl
    · split
      · right; exact ⟨1, by simp⟩
      · rcases ih (c :: acc) with h | ⟨k, hk⟩
        · left; exact h
        · right; exact ⟨k + 1, by simp [hk]⟩

/-- The extension of a name is one of its suffixes. -/
theorem Ext_suffix (f : Str) : ∃ t, f = t ++ Ext f := by
  unfold Ext
  rcases Ext_loop_suffix f.reverse [] with h | ⟨k, hk⟩
  · exact ⟨f, by simp [h]⟩
  · refine ⟨(f.reverse.drop k).reverse, ?_⟩
    rw [hk, List.append_nil, ← List.reverse_append, List.take_append_drop, List.reverse_reverse]

/-- Removing the extension of `pre/f` removes the extension of the file name `f`. -/
theorem TrimSuffix_Ext_append (pre f : Str) (hf : '/' ∉ f) :
    strings.TrimSuffix (pre ++ '/' :: f) (Ext (pre ++ '/' :: f))
      = pre ++ '/' :: strings.TrimSuffix f (Ext f) := by
  rw [Ext_append pre f hf]
  obtain ⟨t, ht⟩ := Ext_suffix f
  generalize Ext f = e at ht
  subst ht
  rw [strings.TrimSuffix_append t e]
  have h1 : pre ++ '/' :: (t ++ e) = (pre ++ '/' :: t) ++ e := by simp
  rw [h1]
  exact strings.TrimSuffix_append _ e

/-- A name ending in `.md` has the extension `.md`. -/
theorem Ext_md (g : Str) : Ext (g ++ ['.', 'm', 'd']) = ['.', 'm', 'd'] := by
  unfold Ext
  simp [Ext.loop]

end Gdoc.path

/-! ## Lemmas on the handler's helpers -/

namespace Gdoc

open path strings

theorem mapLen_some_pos (m : Catalog) : 0 < mapLen (some m) ↔ m ≠ [] := by
  unfold mapLen
  rw [List.length_pos, ne_eq, List.dedup_eq_nil, ne_eq, List.map_eq_nil_iff]

theorem lookup_eq_none_iff_not_mem (m : Catalog) (k : Str) :
    m.lookup k = none ↔ k ∉ m.map Prod.fst := by
  induction m with
  | nil => simp
  | cons a m ih =>
    obtain ⟨x, y⟩ := a
    by_cases hk : k = x
    · subst hk
      simp [List.lookup]
    · have hb : (k == x) = false := by simpa using hk
      simp [List.lookup, hb, ih, hk]

theorem lookup_ne_nil (m : Catalog) (k t : Str) (h : m.lookup k = some t) : m ≠ [] := by
  intro h0
  subst h0
  simp at h

/-- Joining `[..., A/B]` is joining `[..., A, B]`. -/
theorem Join_loop_split (pre : List Str) (A B buf : Str) (hA : A ≠ []) :
    Join.loop (pre ++ [A ++ '/' :: B]) buf = Join.loop (pre ++ [A, B]) buf := by
  induction pre generalizing buf with
  | nil =>
    have hAB : A ++ '/' :: B ≠ [] := by simp
    have hApos : 0 < A.length := List.length_pos.mpr hA
    have h1 : Join.loop [A ++ '/' :: B] buf
        = (if 0 < buf.length then buf ++ ['/'] else buf) ++ (A ++ '/' :: B) := by
      simp [Join.loop, hAB]
    have h2 : Join.loop [A, B] buf
        = ((if 0 < buf.length then buf ++ ['/'] else buf) ++ A) ++ ['/'] ++ B := by
      have hpos : 0 < ((if 0 < buf.length then buf ++ ['/'] else buf) ++ A).length := by
        rw [List.length_append]
        omega
      simp only [Join.loop, hA, ne_eq, not_false_eq_true, or_true, if_true, hpos, true_or]
    show Join.loop [A ++ '/' :: B] buf = Join.loop [A, B] buf
    rw [h1, h2]
    simp
  | cons e pre ih =>
    simp only [List.cons_append, Join.loop]
    split
    · exact ih _
    · exact ih _

theorem Join_split (pre : List Str) (A B : Str) (hA : A ≠ []) :
    Join (pre ++ [A ++ '/' :: B]) = Join (pre ++ [A, B]) := by
  have hpos := List.length_pos.mpr hA
  have h1 : ((pre ++ [A ++ '/' :: B]).map List.length).sum ≠ 0 := by
    simp only [List.map_append, List.sum_append, List.map_cons, List.map_nil, List.sum_cons,
      List.sum_nil, List.length_append, List.length_cons]
    omega
  have h2 : ((pre ++ [A, B]).map List.length).sum ≠ 0 := by
    simp only [List.map_append, List.sum_append, List.map_cons, List.map_nil, List.sum_cons,
      List.sum_nil]
    omega
  unfold Join
  rw [if_neg h1, if_neg h2, Join_loop_split pre A B [] hA]

end Gdoc

/-! ## Properties of the handler -/

namespace Gdoc

open path strings

theorem slash_toList : "/".toList = ['/'] := rfl

theorem resolve_nil (h : Handler) (lib : Lib) (fs : FS) :
    h.resolve lib fs [] =
      { version := h.DefaultVersionName, baseName := "index.html".toList, dirName := [] } := by
  simp [Handler.resolve]

theorem GetContentPath_eq (h : Handler) (version p : Str) :
    h.GetContentPath version p
      = Join [h.DocsDir, Join [if version = h.DefaultVersionName then [] else version,
          "_source".toList, TrimSuffix p (Ext p)]] ++ ".md".toList := rfl

/-- C3: for every handler configuration and file system, the empty request resolves to the
default version, the empty directory and `index.html`; catalog and sidebar are looked up for
the default version, and the content is rendered from the file
`path.Join(DocsDir, "_source", "index") + ".md"`. -/
theorem Handle_empty_request (h : Handler) (lib : Lib) (fs : FS) :
    h.resolve lib fs [] =
        { version := h.DefaultVersionName, baseName := "index.html".toList, dirName := [] }
      ∧ (h.HandleData lib fs []).versions = h.GetVersion lib fs h.DefaultVersionName
      ∧ (h.HandleData lib fs []).sidebar = h.GetSidebar fs h.DefaultVersionName
      ∧ h.GetContentPath h.DefaultVersionName (Join [[], "index.html".toList])
          = Join [h.DocsDir, "_source".toList, "index".toList] ++ ".md".toList
      ∧ (h.HandleData lib fs []).content
          = renderFile lib fs (Join [h.DocsDir, "_source".toList, "index".toList] ++ ".md".toList) := by
  have hc : Join [[], "index.html".toList] = "index.html".toList := by decide
  have hs : Join [[], "_source".toList, TrimSuffix "index.html".toList (Ext "index.html".toList)]
      = "_source".toList ++ '/' :: "index".toList := by decide
  have hp : h.GetContentPath h.DefaultVersionName (Join [[], "index.html".toList])
      = Join [h.DocsDir, "_source".toList, "index".toList] ++ ".md".toList := by
    rw [GetContentPath_eq, hc, if_pos rfl, hs]
    exact congrArg (· ++ ".md".toList)
      (Join_split [h.DocsDir] "_source".toList "index".toList (by decide))
  refine ⟨resolve_nil h lib fs, ?_, ?_, hp, ?_⟩
  · simp [Handler.HandleData, resolve_nil]
  · simp [Handler.HandleData, resolve_nil]
  · have : (h.HandleData lib fs []).content
        = renderFile lib fs (h.GetContentPath h.DefaultVersionName (Join [[], "index.html".toList])) := by
      simp [Handler.HandleData, resolve_nil, Handler.GetContent]
    rw [this, hp]

theorem GetVersion_eq (h : Handler) (lib : Lib) (fs : FS) (version : Str) :
    h.GetVersion lib fs version
      = if !isFile fs h.versionsFile then some []
        else
          match (yamlParseFile lib fs h.versionsFile).lookup version with
          | none => none
          | some _ =>
            match (yamlParseFile lib fs h.versionsFile).lookup "default".toList with
            | none => some (("default".toList, placeholderTitle)
                        :: yamlParseFile lib fs h.versionsFile)
            | some _ => some (yamlParseFile lib fs h.versionsFile) := rfl

/-- Without a catalog file `GetVersion` gives the empty catalog. -/
theorem GetVersion_no_file (h : Handler) (lib : Lib) (fs : FS) (version : Str)
    (hf : isFile fs h.versionsFile = false) : h.GetVersion lib fs version = some [] := by
  rw [GetVersion_eq]
  simp [hf]

/-- An identifier that is no key of the catalog file gives the nil map. -/
theorem GetVersion_no_key (h : Handler) (lib : Lib) (fs : FS) (version : Str)
    (hf : isFile fs h.versionsFile = true)
    (hk : (yamlParseFile lib fs h.versionsFile).lookup version = none) :
    h.GetVersion lib fs version = none := by
  rw [GetVersion_eq]
  simp [hf, hk]

/-- An identifier that is a key of the catalog file gives the catalog, completed by a
`default` entry. -/
theorem GetVersion_key (h : Handler) (lib : Lib) (fs : FS) (version t : Str)
    (hf : isFile fs h.versionsFile = true)
    (hk : (yamlParseFile lib fs h.versionsFile).lookup version = some t) :
    h.GetVersion lib fs version
      = match (yamlParseFile lib fs h.versionsFile).lookup "default".toList with
        | none => some (("default".toList, placeholderTitle)
                    :: yamlParseFile lib fs h.versionsFile)
        | some _ => some (yamlParseFile lib fs h.versionsFile) := by
  rw [GetVersion_eq]
  simp [hf, hk]

/-- C5 fails as stated: the example catalog file has no `default` key, and for the identifier
`v9`, which is not one of its keys, `GetVersion` returns the nil map, which holds no `default`
entry. -/
theorem GetVersion_default_counterexample :
    isFile exFS DefaultHandler.versionsFile = true
      ∧ mapHas (some (yamlParseFile exLib exFS DefaultHandler.versionsFile)) "default".toList
          = false
      ∧ DefaultHandler.GetVersion exLib exFS "v9".toList = none
      ∧ mapHas (DefaultHandler.GetVersion exLib exFS "v9".toList) "default".toList = false := by
  decide

/-- C5, amended: when `versions.yml` is a file whose parsed mapping has no `default` key, then
for every requested identifier that is a key of the mapping the catalog returned by
`GetVersion` contains a `default` entry, with the placeholder title. -/
theorem GetVersion_default_entry (h : Handler) (lib : Lib) (fs : FS) (identifier : Str)
    (hf : isFile fs h.versionsFile = true)
    (hd : mapHas (some (yamlParseFile lib fs h.versionsFile)) "default".toList = false)
    (hk : mapHas (some (yamlParseFile lib fs h.versionsFile)) identifier = true) :
    mapHas (h.GetVersion lib fs identifier) "default".toList = true
      ∧ mapIndex (h.GetVersion lib fs identifier) "default".toList = placeholderTitle := by
  have hd2 : (yamlParseFile lib fs h.versionsFile).lookup "default".toList = none := by
    cases hl : (yamlParseFile lib fs h.versionsFile).lookup "default".toList with
    | none => rfl
    | some x =>
      rw [mapHas, hl] at hd
      exact absurd hd (by simp)
  simp only [mapHas, Option.isSome_iff_exists] at hk
  obtain ⟨t, ht⟩ := hk
  rw [GetVersion_key h lib fs identifier t hf ht, hd2]
  simp [mapHas, mapIndex, List.lookup]

/-- The amended C5 at the example tree: `v2` is a key of the example catalog. -/
theorem GetVersion_default_entry_witness :
    mapHas (DefaultHandler.GetVersion exLib exFS "v2".toList) "default".toList = true
      ∧ mapIndex (DefaultHandler.GetVersion exLib exFS "v2".toList) "default".toList
          = placeholderTitle :=
  GetVersion_default_entry DefaultHandler exLib exFS "v2".toList (by decide) (by decide)
    (by decide)

end Gdoc

namespace Gdoc

open path strings

/-- The catalog returned is non-empty exactly for a key of a present catalog file. -/
theorem mapLen_GetVersion_pos (h : Handler) (lib : Lib) (fs : FS) (identifier : Str) :
    0 < mapLen (h.GetVersion lib fs identifier)
      ↔ (isFile fs h.versionsFile = true
          ∧ mapHas (some (yamlParseFile lib fs h.versionsFile)) identifier = true) := by
  cases hf : isFile fs h.versionsFile with
  | false =>
    rw [GetVersion_no_file h lib fs identifier hf]
    simp [mapLen]
  | true =>
    cases hk : (yamlParseFile lib fs h.versionsFile).lookup identifier with
    | none =>
      rw [GetVersion_no_key h lib fs identifier hf hk]
      simp [mapLen, mapHas, hk]
    | some t =>
      have hne := lookup_ne_nil _ _ _ hk
      rw [GetVersion_key h lib fs identifier t hf hk]
      have hhas : mapHas (some (yamlParseFile lib fs h.versionsFile)) identifier = true := by
        rw [mapHas, hk]; rfl
      cases hd : (yamlParseFile lib fs h.versionsFile).lookup "default".toList with
      | none =>
        simp only [hhas, and_self, iff_true]
        exact (mapLen_some_pos _).mpr (by simp)
      | some d =>
        simp only [hhas, and_self, iff_true]
        exact (mapLen_some_pos _).mpr hne

/-- Every entry of the catalog file keeps its title in the catalog returned for a key. -/
theorem mapIndex_GetVersion_kept (h : Handler) (lib : Lib) (fs : FS) (identifier : Str)
    (hf : isFile fs h.versionsFile = true)
    (hhas : mapHas (some (yamlParseFile lib fs h.versionsFile)) identifier = true)
    (k t : Str) (hkt : (yamlParseFile lib fs h.versionsFile).lookup k = some t) :
    mapIndex (h.GetVersion lib fs identifier) k = t := by
  have hsome : ∃ u, (yamlParseFile lib fs h.versionsFile).lookup identifier = some u := by
    rw [mapHas] at hhas
    exact Option.isSome_iff_exists.mp hhas
  obtain ⟨u, hu⟩ := hsome
  rw [GetVersion_key h lib fs identifier u hf hu]
  cases hd : (yamlParseFile lib fs h.versionsFile).lookup "default".toList with
  | none =>
    have hne : k ≠ "default".toList := by
      intro hc
      rw [hc, hd] at hkt
      exact absurd hkt (by simp)
    have hb : (k == "default".toList) = false := by simpa using hne
    simp only [mapIndex, List.lookup, hb, hkt, Option.getD_some]
  | some d =>
    simp only [mapIndex, hkt, Option.getD_some]

/-- C6: `GetVersion` equals the reference reading for every identifier and file system state:
the empty catalog without a catalog file, the nil map for an identifier that is no key,
otherwise the parsed mapping plus a `default` entry exactly when it had none, every parsed
entry keeping its title; so the result is non-empty exactly when the file is present and the
identifier is one of its keys. -/
theorem GetVersion_refines (h : Handler) (lib : Lib) (fs : FS) (identifier : Str) :
    h.GetVersion lib fs identifier = h.GetVersionRef lib fs identifier
      ∧ (0 < mapLen (h.GetVersion lib fs identifier)
          ↔ (isFile fs h.versionsFile = true
              ∧ mapHas (some (yamlParseFile lib fs h.versionsFile)) identifier = true))
      ∧ (isFile fs h.versionsFile = true →
          mapHas (some (yamlParseFile lib fs h.versionsFile)) identifier = true →
          ∀ k t, (yamlParseFile lib fs h.versionsFile).lookup k = some t →
            mapIndex (h.GetVersion lib fs identifier) k = t) := by
  have hfile : Join [h.DocsDir, "versions.yml".toList] = h.versionsFile := rfl
  have hparse : lib.yamlUnmarshal ((fs.ReadFile h.versionsFile).getD [])
      = yamlParseFile lib fs h.versionsFile := rfl
  refine ⟨?_, mapLen_GetVersion_pos h lib fs identifier,
    mapIndex_GetVersion_kept h lib fs identifier⟩
  unfold Handler.GetVersionRef
  simp only [hfile, hparse]
  cases hf : isFile fs h.versionsFile with
  | false => simp [GetVersion_no_file h lib fs identifier hf]
  | true =>
    simp only [Bool.true_eq_false, if_false]
    cases hk : (yamlParseFile lib fs h.versionsFile).lookup identifier with
    | none =>
      rw [GetVersion_no_key h lib fs identifier hf hk,
        if_pos ((lookup_eq_none_iff_not_mem _ _).mp hk)]
    | some t =>
      have hmem : ¬ identifier ∉ (yamlParseFile lib fs h.versionsFile).map Prod.fst := by
        rw [← lookup_eq_none_iff_not_mem, hk]
        simp
      rw [GetVersion_key h lib fs identifier t hf hk, if_neg hmem]
      cases hd : (yamlParseFile lib fs h.versionsFile).lookup "default".toList with
      | none =>
        rw [if_neg ((lookup_eq_none_iff_not_mem _ _).mp hd)]
      | some d =>
        have hmemd : "default".toList ∈ (yamlParseFile lib fs h.versionsFile).map Prod.fst := by
          by_contra hc
          rw [← lookup_eq_none_iff_not_mem, hd] at hc
          exact absurd hc (by simp)
        rw [if_pos hmemd]

/-- C6 at the example tree: the title of `v2` is kept in the catalog returned for `v2`. -/
theorem GetVersion_refines_witness :
    mapIndex (DefaultHandler.GetVersion exLib exFS "v2".toList) "v2".toList
      = "Version 2".toList :=
  (GetVersion_refines DefaultHandler exLib exFS "v2".toList).2.2 (by decide) (by decide)
    "v2".toList "Version 2".toList (by decide)

/-- C8: when the resolved Markdown path is not a file, `GetContent` returns the rendering of
the placeholder document, whatever the version and content path; when it is a file that reads
as `bytes`, it returns the rendering of `bytes`. -/
theorem GetContent_placeholder (h : Handler) (lib : Lib) (fs : FS) (version p : Str) :
    (isFile fs (h.GetContentPath version p) = false →
        h.GetContent lib fs version p = lib.Markdown lib.sourceDefault)
      ∧ (∀ bytes, isFile fs (h.GetContentPath version p) = true →
          fs.ReadFile (h.GetContentPath version p) = some bytes →
          h.GetContent lib fs version p = lib.Markdown bytes) := by
  constructor
  · intro hf
    simp [Handler.GetContent, renderFile, hf]
  · intro bytes hf hr
    simp [Handler.GetContent, renderFile, hf, hr]

/-- C8 at the example tree: a missing page of `v2` renders the placeholder, the page `guide`
renders its bytes. -/
theorem GetContent_placeholder_witness :
    DefaultHandler.GetContent exLib exFS "v2".toList "missing.md".toList
        = exLib.Markdown exLib.sourceDefault
      ∧ DefaultHandler.GetContent exLib exFS "v2".toList "guide.md".toList
        = exLib.Markdown "Hello".toList :=
  ⟨(GetContent_placeholder DefaultHandler exLib exFS "v2".toList "missing.md".toList).1
      (by decide),
    (GetContent_placeholder DefaultHandler exLib exFS "v2".toList "guide.md".toList).2
      "Hello".toList (by decide) (by decide)⟩

theorem Join_trailing_nil (P : Str) : Join [['/'], P, []] = Join [['/'], P] := by
  have hh : (Join.loop [['/'], P] []).head? = some '/' := Join_loop_root_head [P]
  have hne : Join.loop [['/'], P] [] ≠ [] := by
    intro h0
    rw [h0] at hh
    simp at hh
  have h1 : Join.loop [['/'], P, []] [] = Join.loop [['/'], P] [] ++ ['/'] := by
    have := Join_loop_append_nil [['/'], P] []
    rw [if_pos (List.length_pos.mpr hne)] at this
    exact this
  unfold Join
  have hs1 : (([['/'], P, []] : List Str).map List.length).sum ≠ 0 := by simp
  have hs2 : (([['/'], P] : List Str).map List.length).sum ≠ 0 := by simp
  rw [if_neg hs1, if_neg hs2, h1, Clean_trailing_slash _ hne]

/-- C9: when the active version is the default one, the template gets the empty
`current_version` and `basePath` equals `prefix_uri`, both `path.Join("/", PrefixUri) + "/"`;
for every request both prefixes begin and end with a slash; and for a non-default active
version `v`, `basePath` is `path.Join("/", PrefixUri, v) + "/"`. -/
theorem HandleData_base_urls (h : Handler) (lib : Lib) (fs : FS) (name : Str) :
    ((h.resolve lib fs name).version = h.DefaultVersionName →
        (h.HandleData lib fs name).current_version = []
          ∧ (h.HandleData lib fs name).basePath = (h.HandleData lib fs name).prefix_uri
          ∧ (h.HandleData lib fs name).prefix_uri
              = Join ["/".toList, h.PrefixUri] ++ "/".toList)
      ∧ ((h.HandleData lib fs name).prefix_uri.head? = some '/'
          ∧ (h.HandleData lib fs name).prefix_uri.getLast? = some '/'
          ∧ (h.HandleData lib fs name).basePath.head? = some '/'
          ∧ (h.HandleData lib fs name).basePath.getLast? = some '/')
      ∧ ((h.resolve lib fs name).version ≠ h.DefaultVersionName →
          (h.HandleData lib fs name).current_version = (h.resolve lib fs name).version
            ∧ (h.HandleData lib fs name).basePath
                = Join ["/".toList, h.PrefixUri, (h.resolve lib fs name).version]
                    ++ "/".toList) := by
  have hpre : (h.HandleData lib fs name).prefix_uri = Join [['/'], h.PrefixUri] ++ ['/'] := rfl
  have hbase : (h.HandleData lib fs name).basePath
      = Join [['/'], h.PrefixUri,
          if (h.resolve lib fs name).version = h.DefaultVersionName then []
          else (h.resolve lib fs name).version] ++ ['/'] := rfl
  have hcur : (h.HandleData lib fs name).current_version
      = if (h.resolve lib fs name).version = h.DefaultVersionName then []
        else (h.resolve lib fs name).version := rfl
  rw [slash_toList]
  refine ⟨?_, ⟨?_, ?_, ?_, ?_⟩, ?_⟩
  · intro hv
    rw [hcur, hbase, hpre, if_pos hv, Join_trailing_nil]
    exact ⟨rfl, rfl, rfl⟩
  · rw [hpre]
    exact head?_append_of_head? _ _ _ (Join_root_head _)
  · rw [hpre]
    simp
  · rw [hbase]
    exact head?_append_of_head? _ _ _ (Join_root_head _)
  · rw [hbase]
    simp
  · intro hv
    rw [hcur, hbase, if_neg hv]
    exact ⟨rfl, rfl⟩

/-- C9 at the example tree: the request `guide.md` stays in the default version, the request
`v2/guide.md` is scoped to `v2`. -/
theorem HandleData_base_urls_witness :
    ((DefaultHandler.HandleData exLib exFS "guide.md".toList).current_version = []
        ∧ (DefaultHandler.HandleData exLib exFS "guide.md".toList).basePath
            = (DefaultHandler.HandleData exLib exFS "guide.md".toList).prefix_uri
        ∧ (DefaultHandler.HandleData exLib exFS "guide.md".toList).prefix_uri
            = Join ["/".toList, DefaultHandler.PrefixUri] ++ "/".toList)
      ∧ ((DefaultHandler.HandleData exLib exFS "v2/guide.md".toList).current_version
            = (DefaultHandler.resolve exLib exFS "v2/guide.md".toList).version
          ∧ (DefaultHandler.HandleData exLib exFS "v2/guide.md".toList).basePath
            = Join ["/".toList, DefaultHandler.PrefixUri,
                (DefaultHandler.resolve exLib exFS "v2/guide.md".toList).version]
                ++ "/".toList) :=
  ⟨(HandleData_base_urls DefaultHandler exLib exFS "guide.md".toList).1 (by decide),
    (HandleData_base_urls DefaultHandler exLib exFS "v2/guide.md".toList).2.2 (by decide)⟩

end Gdoc

namespace Gdoc

open path strings

theorem resolve_dirName (h : Handler) (lib : Lib) (fs : FS) (name : Str) (hn : name ≠ []) :
    (h.resolve lib fs name).dirName
      = Replace (if Dir name = ".".toList then "/".toList else Dir name)
          (h.resolve lib fs name).version [] (-1) := by
  have hpos : 0 < name.length := List.length_pos.mpr hn
  simp [Handler.resolve, hpos]

/-- C10: the directory clean-up of `Handle` removes the active version string wherever it
occurs in the request directory; for the request `v2/v2-notes/guide.md`, whose first segment
`v2` is a key of the example catalog, the derived directory is a slash followed by `-notes`,
not the directory `/v2-notes` left by removing the leading segment only, and the content is
looked up in the directory `-notes` of `storage/docs/v2/_source`, as `guide.md`. -/
theorem Handle_substring_removal :
    (∀ (h : Handler) (lib : Lib) (fs : FS) (name : Str), name ≠ [] →
        (h.resolve lib fs name).dirName
          = Replace (if Dir name = ".".toList then "/".toList else Dir name)
              (h.resolve lib fs name).version [] (-1))
      ∧ Handler.candidate "v2/v2-notes/guide.md".toList = "v2".toList
      ∧ mapHas (some (yamlParseFile exLib exFS DefaultHandler.versionsFile)) "v2".toList = true
      ∧ (DefaultHandler.resolve exLib exFS "v2/v2-notes/guide.md".toList).version = "v2".toList
      ∧ Dir "v2/v2-notes/guide.md".toList = "v2/v2-notes".toList
      ∧ (DefaultHandler.resolve exLib exFS "v2/v2-notes/guide.md".toList).dirName
          = '/' :: "-notes".toList
      ∧ stripLeadingSegment (Dir "v2/v2-notes/guide.md".toList) "v2".toList
          = "/v2-notes".toList
      ∧ DefaultHandler.GetContentPath "v2".toList
            (Join [(DefaultHandler.resolve exLib exFS "v2/v2-notes/guide.md".toList).dirName,
              (DefaultHandler.resolve exLib exFS "v2/v2-notes/guide.md".toList).baseName])
          = "storage/docs/v2/_source/-notes/guide.md".toList :=
  ⟨resolve_dirName, by decide, by decide, by decide, by decide, by decide, by decide,
    by decide⟩

/-- C1 at its failing input: for the request `v2/v2x/guide.md` the first segment `v2` is a
key of the example catalog and becomes the active version, but the directory used is `/x`
where the request directory without its leading version segment is `/v2x`; the file looked
up is `storage/docs/v2/_source/x/guide.md`. -/
theorem Handle_version_strip_failing_input :
    Handler.candidate "v2/v2x/guide.md".toList = "v2".toList
      ∧ mapHas (some (yamlParseFile exLib exFS DefaultHandler.versionsFile)) "v2".toList = true
      ∧ (DefaultHandler.resolve exLib exFS "v2/v2x/guide.md".toList).version = "v2".toList
      ∧ (DefaultHandler.resolve exLib exFS "v2/v2x/guide.md".toList).dirName = "/x".toList
      ∧ stripLeadingSegment (Dir "v2/v2x/guide.md".toList) "v2".toList = "/v2x".toList
      ∧ (DefaultHandler.resolve exLib exFS "v2/v2x/guide.md".toList).dirName
          ≠ stripLeadingSegment (Dir "v2/v2x/guide.md".toList) "v2".toList
      ∧ DefaultHandler.GetContentPath "v2".toList
            (Join [(DefaultHandler.resolve exLib exFS "v2/v2x/guide.md".toList).dirName,
              (DefaultHandler.resolve exLib exFS "v2/v2x/guide.md".toList).baseName])
          = "storage/docs/v2/_source/x/guide.md".toList := by
  decide

end Gdoc

/-! ## Requests made of plain segments -/

namespace Gdoc

open path strings

theorem slashJoin_append (a b : List Str) : slashJoin (a ++ b) = slashJoin a ++ slashJoin b := by
  induction a with
  | nil => rfl
  | cons x a ih => simp [slashJoin, ih]

theorem segPath_ne_nil (d : Str) (ds : List Str) (hd : plainSeg d) : segPath d ds ≠ [] := by
  simp [segPath, hd.1]

theorem segPath_head (d : Str) (ds : List Str) (hd : plainSeg d) :
    (segPath d ds).head? ≠ some '/' := by
  have := plainSeg_head_ne_slash hd
  cases d with
  | nil => exact absurd rfl hd.1
  | cons c d => simpa [segPath] using this

theorem getLast?_of_no_slash (a : Str) (ha : a ≠ []) (hs : '/' ∉ a) :
    a.getLast? ≠ some '/' := by
  rw [List.getLast?_eq_getLast _ ha]
  intro h
  have hmem : a.getLast ha ∈ a := List.getLast_mem ha
  simp only [Option.some.injEq] at h
  exact hs (h ▸ hmem)

theorem slashJoin_getLast (ds : List Str) (hds : ∀ x ∈ ds, plainSeg x) (pre : Str)
    (hpre : pre.getLast? ≠ some '/') : (pre ++ slashJoin ds).getLast? ≠ some '/' := by
  induction ds generalizing pre with
  | nil => simpa [slashJoin] using hpre
  | cons a ds ih =>
    have ha : plainSeg a := hds a (by simp)
    have h1 : pre ++ slashJoin (a :: ds) = (pre ++ '/' :: a) ++ slashJoin ds := by
      simp [slashJoin]
    rw [h1]
    apply ih (fun x hx => hds x (by simp [hx]))
    have h2 : pre ++ '/' :: a = (pre ++ ['/']) ++ a := by simp
    rw [h2, List.getLast?_append_of_ne_nil _ ha.1]
    exact getLast?_of_no_slash a ha.1 ha.2.1

theorem segPath_getLast (d : Str) (ds : List Str) (hd : plainSeg d)
    (hds : ∀ x ∈ ds, plainSeg x) : (segPath d ds).getLast? ≠ some '/' :=
  slashJoin_getLast ds hds d (getLast?_of_no_slash d hd.1 hd.2.1)

theorem segPath_ne_dot (d : Str) (ds : List Str) (hd : plainSeg d)
    (hds : ∀ x ∈ ds, plainSeg x) : segPath d ds ≠ ".".toList := by
  intro h
  cases ds with
  | nil =>
    simp only [segPath, slashJoin, List.append_nil] at h
    exact hd.2.2.1 h
  | cons a ds =>
    obtain ⟨c, d', rfl⟩ := List.exists_cons_of_ne_nil hd.1
    have hlen := congrArg List.length h
    simp [segPath, slashJoin] at hlen

theorem SplitN_slash_two (s : Str) :
    SplitN s ['/'] 2 = genSplit.loop ['/'] 1 s := by
  simp [SplitN]

theorem genSplit_head_segPath (d : Str) (ds : List Str) (hd : plainSeg d) :
    ∃ rest, genSplit.loop ['/'] 1 (segPath d ds) = d :: rest := by
  cases ds with
  | nil =>
    refine ⟨[], ?_⟩
    simp [segPath, slashJoin, genSplit.loop, Index_slash_none d hd.2.1]
  | cons a ds =>
    have h1 : segPath d (a :: ds) = d ++ '/' :: (a ++ slashJoin ds) := by
      simp [segPath, slashJoin]
    rw [h1]
    simp only [genSplit.loop, Index_slash_append d _ hd.2.1, List.take_left']
    exact ⟨_, rfl⟩

/-- The version candidate of a request `d/.../f` is the first directory segment `d`. -/
theorem candidate_dir (d : Str) (ds : List Str) (f : Str) (hd : plainSeg d)
    (hds : ∀ x ∈ ds, plainSeg x) (hf : '/' ∉ f) :
    Handler.candidate (segPath d ds ++ '/' :: f) = d := by
  obtain ⟨rest, hrest⟩ := genSplit_head_segPath d ds hd
  unfold Handler.candidate
  simp only [Dir_append _ f (segPath_ne_nil d ds hd) hf, Clean_segPath d ds hd hds,
    if_neg (segPath_ne_dot d ds hd hds), slash_toList,
    Trim_slash_of_ends _ (segPath_head d ds hd) (segPath_getLast d ds hd hds),
    SplitN_slash_two, hrest]

/-- The version candidate of a request without a directory is the empty string. -/
theorem candidate_file (f : Str) (hf : '/' ∉ f) : Handler.candidate f = [] := by
  have h1 : (if (['.'] : Str) = ".".toList then "/".toList else ['.']) = "/".toList := by decide
  have h2 : SplitN (Trim "/".toList "/".toList) "/".toList 2 = [[]] := by decide
  unfold Handler.candidate
  simp only [Dir_of_no_slash f hf, h1, h2]

/-- The resolution of a request `d/.../f` with plain directory segments. -/
theorem resolve_dir (h : Handler) (lib : Lib) (fs : FS) (d : Str) (ds : List Str) (f : Str)
    (hd : plainSeg d) (hds : ∀ x ∈ ds, plainSeg x) (hfne : f ≠ []) (hf : '/' ∉ f) :
    h.resolve lib fs (segPath d ds ++ '/' :: f)
      = { version := if 0 < mapLen (h.GetVersion lib fs d) then d else h.DefaultVersionName
          baseName :=
            if (if 0 < mapLen (h.GetVersion lib fs d) then d else h.DefaultVersionName)
                ≠ TrimSuffix f (Ext f) then f
            else "index.html".toList
          dirName := Replace (segPath d ds)
            (if 0 < mapLen (h.GetVersion lib fs d) then d else h.DefaultVersionName)
            [] (-1) } := by
  have hpos : 0 < (segPath d ds ++ '/' :: f).length := by simp
  have hslash : f ≠ "/".toList := by
    intro h0
    rw [h0] at hf
    exact hf (by decide)
  unfold Handler.resolve
  simp only [hpos, if_true, candidate_dir d ds f hd hds hf, Base_append _ f hfne hf,
    Ext_append _ f hf, Dir_append _ f (segPath_ne_nil d ds hd) hf, Clean_segPath d ds hd hds,
    if_neg (segPath_ne_dot d ds hd hds), ne_eq, hfne, hslash, not_false_eq_true, and_true]

end Gdoc

namespace Gdoc

open path strings

theorem Join_nil_seg (g : Str) (hg : plainSeg g) : Join [[], g] = g := by
  have hsum : (([[], g] : List Str).map List.length).sum ≠ 0 := by
    have := List.length_pos.mpr hg.1
    simp only [List.map_cons, List.map_nil, List.sum_cons, List.sum_nil, List.length_nil]
    omega
  have hloop : Join.loop [[], g] [] = g := by
    simp [Join.loop, hg.1]
  have hclean := Clean_segPath g [] hg (by simp)
  simp only [segPath, slashJoin, List.append_nil] at hclean
  unfold Join
  rw [if_neg hsum, hloop, hclean]

theorem Join_version_source (v x : Str) (xs : List Str) (hv : plainSeg v) (hx : plainSeg x)
    (hxs : ∀ y ∈ xs, plainSeg y) :
    Join [v, "_source".toList, segPath x xs] = segPath v ("_source".toList :: x :: xs) := by
  have hsum : (([v, "_source".toList, segPath x xs] : List Str).map List.length).sum ≠ 0 := by
    simp
  have hloop : Join.loop [v, "_source".toList, segPath x xs] []
      = segPath v ("_source".toList :: x :: xs) := by
    have hpos := List.length_pos.mpr hv.1
    simp [Join.loop, segPath, slashJoin, hv.1, hpos]
  unfold Join
  rw [if_neg hsum, hloop]
  exact Clean_segPath _ _ hv (by
    intro y hy
    rcases List.mem_cons.mp hy with rfl | hy
    · decide
    · rcases List.mem_cons.mp hy with rfl | hy
      · exact hx
      · exact hxs y hy)

/-- The Markdown file of a content path whose extension-free form is a path `x/...` of plain
segments, for a version other than the default one. -/
theorem GetContentPath_version (h : Handler) (v p x : Str) (xs : List Str)
    (hv : plainSeg v) (hvd : v ≠ h.DefaultVersionName)
    (hp : TrimSuffix p (Ext p) = segPath x xs) (hx : plainSeg x)
    (hxs : ∀ y ∈ xs, plainSeg y) :
    h.GetContentPath v p
      = Join [h.DocsDir, v, "_source".toList, segPath x xs] ++ ".md".toList := by
  rw [GetContentPath_eq, if_neg hvd, hp, Join_version_source v x xs hv hx hxs]
  have h1 : segPath v ("_source".toList :: x :: xs)
      = v ++ '/' :: ("_source".toList ++ '/' :: segPath x xs) := by
    simp [segPath, slashJoin]
  rw [h1]
  have s1 := Join_split [h.DocsDir] v ("_source".toList ++ '/' :: segPath x xs) hv.1
  have s2 := Join_split [h.DocsDir, v] "_source".toList (segPath x xs) (by decide)
  exact congrArg (· ++ ".md".toList) (s1.trans s2)

theorem plainSeg_md (f : Str) (hf : plainSeg f) : plainSeg (f ++ ".md".toList) := by
  obtain ⟨hne, hsl, -, -⟩ := hf
  have hlen : 3 < (f ++ ".md".toList).length := by
    have := List.length_pos.mpr hne
    simp
    omega
  refine ⟨by simp [hne], ?_, ?_, ?_⟩
  · intro hmem
    rcases List.mem_append.mp hmem with h1 | h1
    · exact hsl h1
    · exact absurd h1 (by decide)
  · intro h0
    rw [h0] at hlen
    simp at hlen
  · intro h0
    rw [h0] at hlen
    simp at hlen

/-- C4: for a version `v` that is a key of the catalog, a plain segment and not the default
version, and a plain file stem `f` other than `v`, the request `v/f.md` is rendered with the
catalog's title of `v` as `current_version_title` and with the content of the file
`path.Join(DocsDir, v, "_source", f) + ".md"`. -/
theorem Handle_versioned_page (h : Handler) (lib : Lib) (fs : FS) (v f t : Str)
    (hfile : isFile fs h.versionsFile = true)
    (hkey : (yamlParseFile lib fs h.versionsFile).lookup v = some t)
    (hv : plainSeg v) (hvd : v ≠ h.DefaultVersionName) (hf : plainSeg f) (hfv : f ≠ v) :
    (h.resolve lib fs (v ++ "/".toList ++ f ++ ".md".toList)).version = v
      ∧ (h.HandleData lib fs (v ++ "/".toList ++ f ++ ".md".toList)).current_version_title = t
      ∧ (h.HandleData lib fs (v ++ "/".toList ++ f ++ ".md".toList)).content
          = renderFile lib fs
              (Join [h.DocsDir, v, "_source".toList, f] ++ ".md".toList) := by
  have hg := plainSeg_md f hf
  have hname : v ++ "/".toList ++ f ++ ".md".toList
      = segPath v [] ++ '/' :: (f ++ ".md".toList) := by
    simp [segPath, slashJoin]
  have hlen : 0 < mapLen (h.GetVersion lib fs v) := by
    rw [mapLen_GetVersion_pos h lib fs v]
    exact ⟨hfile, by rw [mapHas, hkey]; rfl⟩
  have hext : Ext (f ++ ".md".toList) = ".md".toList := Ext_md f
  have hstem : TrimSuffix (f ++ ".md".toList) (Ext (f ++ ".md".toList)) = f := by
    rw [hext]
    exact TrimSuffix_append f _
  have hres : h.resolve lib fs (v ++ "/".toList ++ f ++ ".md".toList)
      = { version := v, baseName := f ++ ".md".toList, dirName := [] } := by
    rw [hname, resolve_dir h lib fs v [] (f ++ ".md".toList) hv (by simp) hg.1 hg.2.1]
    simp only [hlen, if_true, hstem, ne_eq, Ne.symm hfv, not_false_eq_true]
    have : segPath v [] = v := by simp [segPath, slashJoin]
    rw [this, Replace_self v hv.1]
  have hpath : h.GetContentPath v (f ++ ".md".toList)
      = Join [h.DocsDir, v, "_source".toList, f] ++ ".md".toList := by
    have := GetContentPath_version h v (f ++ ".md".toList) f [] hv hvd
      (by rw [hstem]; simp [segPath, slashJoin]) hf (by simp)
    simpa [segPath, slashJoin] using this
  have htitle : mapIndex (h.GetVersion lib fs v) v = t :=
    mapIndex_GetVersion_kept h lib fs v hfile (by rw [mapHas, hkey]; rfl) v t hkey
  have hvlen : v.length ≠ 0 := by
    have := List.length_pos.mpr hv.1
    omega
  refine ⟨by rw [hres], ?_, ?_⟩
  · simp only [Handler.HandleData, hres, hvlen, if_false, htitle]
  · simp only [Handler.HandleData, hres, Handler.GetContent, Join_nil_seg _ hg, hpath]

/-- C4 at the example tree: `v2/guide.md` with `v2: "Version 2"` gives the title `Version 2`
and the content of `storage/docs/v2/_source/guide.md`. -/
theorem Handle_versioned_page_witness :
    (DefaultHandler.resolve exLib exFS
        ("v2".toList ++ "/".toList ++ "guide".toList ++ ".md".toList)).version = "v2".toList
      ∧ (DefaultHandler.HandleData exLib exFS
          ("v2".toList ++ "/".toList ++ "guide".toList ++ ".md".toList)).current_version_title
          = "Version 2".toList
      ∧ (DefaultHandler.HandleData exLib exFS
          ("v2".toList ++ "/".toList ++ "guide".toList ++ ".md".toList)).content
          = renderFile exLib exFS
              (Join [DefaultHandler.DocsDir, "v2".toList, "_source".toList, "guide".toList]
                ++ ".md".toList) :=
  Handle_versioned_page DefaultHandler exLib exFS "v2".toList "guide".toList
    "Version 2".toList (by decide) (by decide) (by decide) (by decide) (by decide) (by decide)

end Gdoc

namespace Gdoc

open path strings

theorem Index_slash_of_ne (D : Str) (h0 : D ≠ []) (h1 : D ≠ "/".toList) :
    Index "/".toList D = none := by
  rw [slash_toList] at h1 ⊢
  cases D with
  | nil => exact absurd rfl h0
  | cons c D =>
    cases D with
    | nil =>
      have hc : c ≠ '/' := fun hc => h1 (by rw [hc])
      simp [Index, List.isPrefixOf, hc]
    | cons c2 D => simp [Index, List.isPrefixOf]

theorem mapLen_GetVersion_zero (h : Handler) (lib : Lib) (fs : FS) (v : Str)
    (hkey : isFile fs h.versionsFile = false
      ∨ (yamlParseFile lib fs h.versionsFile).lookup v = none) :
    ¬ 0 < mapLen (h.GetVersion lib fs v) := by
  rw [mapLen_GetVersion_pos]
  rintro ⟨hf, hhas⟩
  rcases hkey with hk | hk
  · rw [hk] at hf
    exact absurd hf (by simp)
  · rw [mapHas, hk] at hhas
    exact absurd hhas (by simp)

theorem Replace_of_absent (s old : Str) (h : old = [] ∨ Index s old = none) :
    Replace s old [] (-1) = s := by
  rcases h with h | h
  · rw [h]
    exact Replace_nil_nil s _
  · exact Replace_of_Index_none s old [] _ h

end Gdoc

/-! ## Requests of a declared version -/

namespace Gdoc

open path strings

theorem isPrefixOf_append_self (d R : Str) : d.isPrefixOf (d ++ R) = true := by
  induction d with
  | nil => simp [List.isPrefixOf]
  | cons c d ih => simp [List.isPrefixOf, ih]

theorem Index_append_self (d R : Str) : Index (d ++ R) d = some 0 := by
  cases hdR : d ++ R with
  | nil =>
    have : d = [] := (List.append_eq_nil.mp hdR).1
    subst this
    simp [Index]
  | cons c s =>
    have := isPrefixOf_append_self d R
    rw [hdR] at this
    simp [Index, this]

/-- Removing every occurrence of `d` from `d` followed by a text without `d` removes the
leading `d` only. -/
theorem Replace_leading (d R : Str) (hd : d ≠ []) (hR : Index R d = none) :
    Replace (d ++ R) d [] (-1) = R := by
  have hpos : 0 < d.length := List.length_pos.mpr hd
  have hcount : Count (d ++ R) d = 1 := by
    unfold Count
    rw [if_neg hd]
    have hlen : (d ++ R).length = (d.length + R.length - 1) + 1 := by
      rw [List.length_append]
      omega
    rw [hlen]
    conv_lhs => rw [Count.loop]
    simp only [Index_append_self, Nat.zero_add, List.drop_left']
    cases hf : d.length + R.length - 1 with
    | zero => rfl
    | succ k => simp [Count.loop, hR]
  unfold Replace
  have h1 : ¬ (d = [] ∨ (-1 : Int) = 0) := by simp [hd]
  rw [if_neg h1]
  simp [hcount, Replace.loop, hd, Index_append_self]

/-- A request `d/.../f` of plain directory segments whose first segment `d` is a key of the
catalog is resolved in the version `d`: catalog, sidebar and content are looked up for `d`,
and when `d` does not occur in the rest of the directory, the directory used is the request
directory without its leading segment. -/
theorem Handle_known_version (h : Handler) (lib : Lib) (fs : FS) (d : Str) (ds : List Str)
    (f t : Str) (hfile : isFile fs h.versionsFile = true)
    (hkey : (yamlParseFile lib fs h.versionsFile).lookup d = some t)
    (hd : plainSeg d) (hds : ∀ x ∈ ds, plainSeg x) (hfne : f ≠ []) (hf : '/' ∉ f) :
    (h.resolve lib fs (segPath d ds ++ '/' :: f)).version = d
      ∧ (h.HandleData lib fs (segPath d ds ++ '/' :: f)).versions = h.GetVersion lib fs d
      ∧ (h.HandleData lib fs (segPath d ds ++ '/' :: f)).sidebar = h.GetSidebar fs d
      ∧ (h.HandleData lib fs (segPath d ds ++ '/' :: f)).content
          = h.GetContent lib fs d
              (Join [(h.resolve lib fs (segPath d ds ++ '/' :: f)).dirName,
                (h.resolve lib fs (segPath d ds ++ '/' :: f)).baseName])
      ∧ (Index (slashJoin ds) d = none →
          (h.resolve lib fs (segPath d ds ++ '/' :: f)).dirName = slashJoin ds) := by
  have hlen : 0 < mapLen (h.GetVersion lib fs d) := by
    rw [mapLen_GetVersion_pos h lib fs d]
    exact ⟨hfile, by rw [mapHas, hkey]; rfl⟩
  have hres := resolve_dir h lib fs d ds f hd hds hfne hf
  simp only [hlen, if_true] at hres
  have hver : (h.resolve lib fs (segPath d ds ++ '/' :: f)).version = d := by rw [hres]
  refine ⟨hver, ?_, ?_, ?_, ?_⟩
  · simp only [Handler.HandleData, hver]
  · simp only [Handler.HandleData, hver]
  · simp only [Handler.HandleData, hver]
  · intro hocc
    rw [hres]
    exact Replace_leading d (slashJoin ds) hd.1 hocc

/-- The request `v2/api/guide.md` at the example tree is resolved in the version `v2`, in the
directory `/api`. -/
theorem Handle_known_version_witness :
    (DefaultHandler.resolve exLib exFS
        (segPath "v2".toList ["api".toList] ++ '/' :: "guide.md".toList)).version = "v2".toList
      ∧ (DefaultHandler.resolve exLib exFS
          (segPath "v2".toList ["api".toList] ++ '/' :: "guide.md".toList)).dirName
          = slashJoin ["api".toList] :=
  have key := Handle_known_version DefaultHandler exLib exFS "v2".toList ["api".toList]
    "guide.md".toList "Version 2".toList (by decide) (by decide) (by decide) (by decide)
    (by decide) (by decide)
  ⟨key.1, key.2.2.2.2 (by decide)⟩

end Gdoc

/-! ## The segments of a path -/

namespace Gdoc

open path strings

theorem segments_ne_nil (X : Str) : segments X ≠ [] := by
  induction X with
  | nil => simp [segments]
  | cons c X ih =>
    unfold segments
    split
    · simp
    · split <;> simp

theorem segments_cons_slash (X : Str) : segments ('/' :: X) = [] :: segments X := by
  simp [segments]

theorem segments_cons_char (c : Char) (X : Str) (hc : c ≠ '/') :
    ∃ x t, segments X = x :: t ∧ segments (c :: X) = (c :: x) :: t := by
  obtain ⟨x, t, hxt⟩ := List.exists_cons_of_ne_nil (segments_ne_nil X)
  refine ⟨x, t, hxt, ?_⟩
  conv_lhs => unfold segments
  simp [hc, hxt]

/-- A path is its segments, joined by slashes. -/
theorem slashJoin_segments (X : Str) : slashJoin (segments X) = '/' :: X := by
  induction X with
  | nil => simp [segments, slashJoin]
  | cons c X ih =>
    by_cases hc : c = '/'
    · subst hc
      rw [segments_cons_slash]
      simp [slashJoin, ih]
    · obtain ⟨x, t, hxt, hcx⟩ := segments_cons_char c X hc
      rw [hcx]
      rw [hxt] at ih
      simp only [slashJoin, List.cons.injEq, true_and] at ih ⊢
      rw [← ih]
      simp

theorem segments_no_slash (X : Str) : ∀ s ∈ segments X, '/' ∉ s := by
  induction X with
  | nil => simp [segments]
  | cons c X ih =>
    by_cases hc : c = '/'
    · subst hc
      rw [segments_cons_slash]
      intro s hs
      rcases List.mem_cons.mp hs with rfl | hs
      · simp
      · exact ih s hs
    · obtain ⟨x, t, hxt, hcx⟩ := segments_cons_char c X hc
      rw [hcx]
      rw [hxt] at ih
      intro s hs
      rcases List.mem_cons.mp hs with rfl | hs
      · intro hmem
        rcases List.mem_cons.mp hmem with h1 | h1
        · exact hc h1.symm
        · exact ih x (by simp) h1
      · exact ih s (by simp [hs])

/-- The segments of `A/B` are those of `A` followed by those of `B`. -/
theorem segments_append (A B : Str) : segments (A ++ '/' :: B) = segments A ++ segments B := by
  induction A with
  | nil => simp [segments]
  | cons c A ih =>
    have h1 : (c :: A) ++ '/' :: B = c :: (A ++ '/' :: B) := rfl
    rw [h1]
    by_cases hc : c = '/'
    · subst hc
      rw [segments_cons_slash, segments_cons_slash, ih]
      rfl
    · obtain ⟨x, t, hxt, hcx⟩ := segments_cons_char c A hc
      obtain ⟨y, u, hyu, hcy⟩ := segments_cons_char c (A ++ '/' :: B) hc
      rw [hcx, hcy]
      rw [ih, hxt] at hyu
      simp only [List.cons_append, List.cons.injEq] at hyu
      rw [← hyu.1, ← hyu.2]
      rfl

theorem segments_of_no_slash (s : Str) (hs : '/' ∉ s) : segments s = [s] := by
  induction s with
  | nil => rfl
  | cons c s ih =>
    have hc : c ≠ '/' := fun h => hs (by simp [h])
    have hs2 : '/' ∉ s := fun h => hs (by simp [h])
    obtain ⟨x, t, hxt, hcx⟩ := segments_cons_char c s hc
    rw [hcx]
    rw [ih hs2] at hxt
    simp only [List.cons.injEq] at hxt
    rw [← hxt.1, ← hxt.2]

/-- The segments of a path written from slash-free segments are those segments. -/
theorem segments_segPath (s : Str) (T : List Str) (hs : '/' ∉ s) (hT : ∀ x ∈ T, '/' ∉ x) :
    segments (segPath s T) = s :: T := by
  induction T generalizing s with
  | nil => simpa [segPath, slashJoin] using segments_of_no_slash s hs
  | cons a T ih =>
    have h1 : segPath s (a :: T) = s ++ '/' :: segPath a T := by
      simp [segPath, slashJoin]
    rw [h1, segments_append, segments_of_no_slash s hs,
      ih a (hT a (by simp)) (fun x hx => hT x (by simp [hx]))]
    rfl

end Gdoc

/-! ## The backward scan of `path.Clean` -/

namespace Gdoc

open path strings

theorem Clean_backtrack_stop (out : Str) (dd w : Nat)
    (h : w ≤ dd ∨ out.getD w '/' = '/') : Clean.backtrack out dd w = w := by
  cases w with
  | zero => rfl
  | succ w =>
    have h2 : Clean.backtrack out dd (w + 1)
        = if dd < w + 1 ∧ out.getD (w + 1) '/' ≠ '/' then Clean.backtrack out dd w
          else w + 1 := rfl
    rw [h2, if_neg]
    rintro ⟨h1, h2⟩
    rcases h with h | h
    · omega
    · exact h2 h

theorem Clean_backtrack_run (out : Str) (dd b : Nat) (hdd : dd ≤ b) :
    ∀ j, (∀ i, b < i → i ≤ b + j → out.getD i '/' ≠ '/') →
      Clean.backtrack out dd (b + j) = Clean.backtrack out dd b := by
  intro j
  induction j with
  | zero => intro _; rfl
  | succ j ih =>
    intro hrun
    have h1 : b + (j + 1) = (b + j) + 1 := by omega
    have h2 : Clean.backtrack out dd ((b + j) + 1)
        = if dd < (b + j) + 1 ∧ out.getD ((b + j) + 1) '/' ≠ '/' then
            Clean.backtrack out dd (b + j)
          else (b + j) + 1 := rfl
    rw [h1, h2, if_pos ⟨by omega, hrun (b + j + 1) (by omega) (by omega)⟩]
    exact ih (fun i hi1 hi2 => hrun i hi1 (by omega))

theorem getD_ne_slash (top : Str) (htop : '/' ∉ top) (k : Nat) (hk : k < top.length) :
    top.getD k '/' ≠ '/' := by
  rw [List.getD_eq_getElem _ _ hk]
  intro h
  exact htop (h ▸ List.getElem_mem hk)

/-- The `..` case of `path.Clean` cuts the buffer back to what preceded its last element:
`base`, when the buffer is `base`, a separator and a slash-free element `top`. -/
theorem Clean_backtrack_pop (base sep top : Str) (dd : Nat) (htop : '/' ∉ top)
    (hne : top ≠ []) (hdd : dd ≤ base.length)
    (hsep : sep = ['/'] ∨ (sep = [] ∧ dd = base.length)) :
    (base ++ sep ++ top).take
        (Clean.backtrack (base ++ sep ++ top) dd ((base ++ sep ++ top).length - 1))
      = base := by
  have hpos : 0 < top.length := List.length_pos.mpr hne
  have hlen : (base ++ sep ++ top).length - 1
      = base.length + (sep.length + top.length - 1) := by
    simp only [List.length_append]
    omega
  have hrun : ∀ i, base.length < i → i ≤ base.length + (sep.length + top.length - 1) →
      (base ++ sep ++ top).getD i '/' ≠ '/' := by
    intro i hi1 hi2
    rcases hsep with rfl | ⟨rfl, -⟩
    · have hle : (base ++ ['/']).length ≤ i := by simp; omega
      rw [List.getD_append_right _ _ _ _ hle]
      apply getD_ne_slash top htop
      simp at hi2 ⊢
      omega
    · have hle : (base ++ []).length ≤ i := by simp; omega
      rw [List.getD_append_right _ _ _ _ hle]
      apply getD_ne_slash top htop
      simp at hi2 ⊢
      omega
  have hstop : Clean.backtrack (base ++ sep ++ top) dd base.length = base.length := by
    apply Clean_backtrack_stop
    rcases hsep with rfl | ⟨rfl, h2⟩
    · right
      have hle : base.length ≤ base.length := le_refl _
      rw [List.append_assoc, List.getD_append_right _ _ _ _ hle]
      simp
    · left
      omega
  rw [hlen, Clean_backtrack_run _ dd base.length hdd _ hrun, hstop, List.append_assoc,
    List.take_left']
  rfl

end Gdoc

/-! ## `path.Clean`, segment by segment -/

namespace Gdoc

open path strings

theorem reqDir_append (A B : List Str) (hA : A ≠ []) :
    reqDir (A ++ B) = reqDir A ++ slashJoin B := by
  obtain ⟨a, A2, rfl⟩ := List.exists_cons_of_ne_nil hA
  simp [reqDir, segPath, slashJoin_append]

theorem reqDir_ne_nil (L : List Str) (hL : L ≠ []) (hne : ∀ x ∈ L, x ≠ []) :
    reqDir L ≠ [] := by
  obtain ⟨a, A2, rfl⟩ := List.exists_cons_of_ne_nil hL
  simp [reqDir, segPath, hne a (by simp)]

theorem reqDir_length_le (A B : List Str) :
    (reqDir A).length ≤ (reqDir (A ++ B)).length := by
  by_cases hA : A = []
  · subst hA
    simp [reqDir]
  · rw [reqDir_append A B hA]
    simp

theorem segList_push (u : Nat) (stk : List Str) (s : Str) :
    segList (u, s :: stk) = segList (u, stk) ++ [s] := by
  simp [segList]

theorem segList_up (u : Nat) :
    segList (u + 1, []) = segList (u, []) ++ [['.', '.']] := by
  simp [segList, List.replicate_succ']

theorem segList_ne_nil_mem (rooted : Bool) (st : Nat × List Str) (hv : segValid rooted st) :
    ∀ x ∈ segList st, x ≠ [] := by
  intro x hx
  rcases List.mem_append.mp hx with h1 | h1
  · rw [List.eq_of_mem_replicate h1]
    simp
  · exact (hv.2 x (List.mem_reverse.mp h1)).1

/-- Writing an element after the segments `L` gives the text of `L` with the element added. -/
theorem Clean_put_renderSegs (rooted : Bool) (L : List Str) (s : Str)
    (hne : ∀ x ∈ L, x ≠ []) :
    Clean.put rooted (renderSegs rooted L) s = renderSegs rooted (L ++ [s]) := by
  by_cases hL : L = []
  · subst hL
    cases rooted <;> simp [Clean.put, Clean.needSlash, renderSegs, reqDir, segPath, slashJoin]
  · have hr := reqDir_ne_nil L hL hne
    have hlen : 0 < (reqDir L).length := List.length_pos.mpr hr
    have hsn := reqDir_append L [s] hL
    cases rooted
    · have h0 : (reqDir L).length ≠ 0 := by omega
      simp [Clean.put, Clean.needSlash, renderSegs, hsn, slashJoin, h0]
    · have h1 : (reqDir L).length + 1 ≠ 1 := by omega
      simp [Clean.put, Clean.needSlash, renderSegs, hsn, slashJoin, h1, hr]

theorem segValid_step (rooted : Bool) (st : Nat × List Str) (s : Str)
    (hv : segValid rooted st) (hs : '/' ∉ s) : segValid rooted (segStep rooted st s) := by
  obtain ⟨u, stk⟩ := st
  unfold segStep
  split
  · exact hv
  · rename_i h1
    split
    · cases stk with
      | nil =>
        cases rooted
        · exact ⟨by simp, by simp⟩
        · simpa using hv
      | cons top rest =>
        exact ⟨hv.1, fun x hx => hv.2 x (by simp [hx])⟩
    · rename_i h2
      refine ⟨hv.1, ?_⟩
      intro x hx
      rcases List.mem_cons.mp hx with rfl | hx
      · simp only [not_or] at h1
        exact ⟨h1.1, hs, h1.2, h2⟩
      · exact hv.2 x hx

theorem segValid_foldl (rooted : Bool) (T : List Str) (hT : ∀ x ∈ T, '/' ∉ x)
    (st : Nat × List Str) (hv : segValid rooted st) :
    segValid rooted (T.foldl (segStep rooted) st) := by
  induction T generalizing st with
  | nil => exact hv
  | cons a T ih =>
    exact ih (fun x hx => hT x (by simp [hx])) _
      (segValid_step rooted st a hv (hT a (by simp)))

theorem segValid_init (rooted : Bool) : segValid rooted (0, []) := by
  exact ⟨fun _ => rfl, by simp⟩

end Gdoc

namespace Gdoc

open path strings

theorem segStep_skip (rooted : Bool) (st : Nat × List Str) (s : Str)
    (h : s = [] ∨ s = ['.']) : segStep rooted st s = st := by
  simp [segStep, h]

theorem segStep_pop (rooted : Bool) (u : Nat) (top : Str) (rest : List Str) :
    segStep rooted (u, top :: rest) ['.', '.'] = (u, rest) := by
  simp [segStep]

theorem segStep_up (u : Nat) : segStep false (u, []) ['.', '.'] = (u + 1, []) := by
  simp [segStep]

theorem segStep_root (u : Nat) : segStep true (u, []) ['.', '.'] = (u, []) := by
  simp [segStep]

theorem segStep_push (rooted : Bool) (st : Nat × List Str) (s : Str) (hs : plainSeg s) :
    segStep rooted st s = (st.1, s :: st.2) := by
  obtain ⟨h1, -, h3, h4⟩ := hs
  simp [segStep, h1, h3, h4]

theorem Clean_loop_dotdot (rooted : Bool) (R out : Str) (dotdot : Nat)
    (hR : R = [] ∨ R.head? = some '/') :
    Clean.loop rooted false (['.', '.'] ++ R) out dotdot
      = if dotdot < out.length then
          Clean.loop rooted false R
            (out.take (Clean.backtrack out dotdot (out.length - 1))) dotdot
        else if !rooted then
          Clean.loop rooted false R
            ((if 0 < out.length then out ++ ['/'] else out) ++ ['.', '.'])
            ((if 0 < out.length then out ++ ['/'] else out) ++ ['.', '.']).length
        else Clean.loop rooted false R out dotdot := by
  have h1 : (['.', '.'] : Str) ++ R = '.' :: '.' :: R := rfl
  rw [h1, Clean_loop_false_two, if_neg (by decide), if_neg (by decide),
    if_pos ⟨rfl, rfl, hR⟩]

theorem Clean_loop_dot (rooted : Bool) (R out : Str) (dotdot : Nat)
    (hR : R = [] ∨ R.head? = some '/') :
    Clean.loop rooted false (['.'] ++ R) out dotdot = Clean.loop rooted false R out dotdot := by
  cases R with
  | nil => simp [Clean_loop_false_one, Clean_loop_nil]
  | cons r R =>
    have hr : r = '/' := by
      rcases hR with h | h
      · exact absurd h (by simp)
      · simpa using h
    subst hr
    have h1 : (['.'] : Str) ++ '/' :: R = '.' :: '/' :: R := rfl
    rw [h1, Clean_loop_false_two, if_neg (by decide), if_pos ⟨rfl, rfl⟩]

/-- One segment of the path, read by `path.Clean` at an element boundary, acts on the buffer
as `segStep` says. -/
theorem Clean_loop_segment (rooted : Bool) (st : Nat × List Str) (s R : Str)
    (hv : segValid rooted st) (hs : '/' ∉ s) (hR : R = [] ∨ R.head? = some '/') :
    Clean.loop rooted false (s ++ R) (renderSegs rooted (segList st)) (dotdotOf rooted st)
      = Clean.loop rooted false R (renderSegs rooted (segList (segStep rooted st s)))
          (dotdotOf rooted (segStep rooted st s)) := by
  by_cases h0 : s = []
  · subst h0
    rw [segStep_skip rooted st [] (Or.inl rfl)]
    rfl
  by_cases h1 : s = ['.']
  · subst h1
    rw [segStep_skip rooted st ['.'] (Or.inr rfl), Clean_loop_dot rooted R _ _ hR]
  by_cases h2 : s = ['.', '.']
  · subst h2
    obtain ⟨u, stk⟩ := st
    rw [Clean_loop_dotdot rooted R _ _ hR]
    cases stk with
    | cons top rest =>
      have htop : plainSeg top := hv.2 top (by simp)
      have hL0 : ∀ x ∈ segList (u, rest), x ≠ [] :=
        segList_ne_nil_mem rooted (u, rest) ⟨hv.1, fun x hx => hv.2 x (by simp [hx])⟩
      have hout : renderSegs rooted (segList (u, top :: rest))
          = renderSegs rooted (segList (u, rest))
              ++ (if Clean.needSlash rooted (renderSegs rooted (segList (u, rest))) then ['/']
                  else []) ++ top := by
        rw [segList_push, ← Clean_put_renderSegs rooted _ top hL0]
        unfold Clean.put
        split <;> simp
      have hddle : dotdotOf rooted (u, top :: rest)
          ≤ (renderSegs rooted (segList (u, rest))).length := by
        cases rooted
        · simp only [dotdotOf, renderSegs, segList, Bool.false_eq_true, if_false]
          exact reqDir_length_le _ _
        · simp [dotdotOf, renderSegs]
      have hsep : (if Clean.needSlash rooted (renderSegs rooted (segList (u, rest))) then ['/']
            else []) = ['/']
          ∨ ((if Clean.needSlash rooted (renderSegs rooted (segList (u, rest))) then ['/']
            else []) = ([] : Str)
            ∧ dotdotOf rooted (u, top :: rest)
                = (renderSegs rooted (segList (u, rest))).length) := by
        by_cases hn : Clean.needSlash rooted (renderSegs rooted (segList (u, rest))) = true
        · left; simp [hn]
        · right
          refine ⟨by simp [hn], ?_⟩
          cases rooted
          · have hlen0 : (reqDir (segList (u, rest))).length = 0 := by
              simpa [Clean.needSlash, renderSegs] using hn
            have hle := hddle
            simp only [dotdotOf, renderSegs, Bool.false_eq_true, if_false] at hle ⊢
            omega
          · have hlen1 : (reqDir (segList (u, rest))).length + 1 = 1 := by
              simpa [Clean.needSlash, renderSegs] using hn
            simp only [dotdotOf, renderSegs, if_true, List.length_cons]
            omega
      have hlt : dotdotOf rooted (u, top :: rest)
          < (renderSegs rooted (segList (u, top :: rest))).length := by
        have := List.length_pos.mpr htop.1
        rw [hout]
        simp only [List.length_append]
        omega
      rw [if_pos hlt, segStep_pop]
      have hpop := Clean_backtrack_pop (renderSegs rooted (segList (u, rest))) _ top
        (dotdotOf rooted (u, top :: rest)) htop.2.1 htop.1 hddle hsep
      rw [← hout] at hpop
      rw [hpop]
      rfl
    | nil =>
      cases rooted
      · have hd : dotdotOf false (u, []) = (renderSegs false (segList (u, []))).length := by
          simp [dotdotOf, renderSegs, segList]
        rw [if_neg (by omega), segStep_up]
        simp only [Bool.not_false, if_true]
        have hnew : (if 0 < (renderSegs false (segList (u, []))).length then
              renderSegs false (segList (u, [])) ++ ['/']
            else renderSegs false (segList (u, []))) ++ ['.', '.']
            = renderSegs false (segList (u + 1, [])) := by
          have hput := Clean_put_renderSegs false (segList (u, [])) ['.', '.']
            (segList_ne_nil_mem false (u, []) ⟨by simp, by simp⟩)
          rw [segList_up, ← hput]
          simp [Clean.put, Clean.needSlash, Nat.pos_iff_ne_zero]
        rw [hnew]
        have hd2 : dotdotOf false (u + 1, [])
            = (renderSegs false (segList (u + 1, []))).length := by
          simp [dotdotOf, renderSegs, segList]
        rw [hd2]
      · have hu : u = 0 := hv.1 rfl
        subst hu
        have hd : ¬ dotdotOf true (0, [])
            < (renderSegs true (segList (0, []))).length := by
          simp [dotdotOf, renderSegs, segList, reqDir]
        rw [if_neg hd, segStep_root]
        simp
  · have hp : plainSeg s := ⟨h0, hs, h1, h2⟩
    rw [Clean_loop_plainSeg rooted s hp R _ _ hR, segStep_push rooted st s hp,
      Clean_put_renderSegs rooted _ s (segList_ne_nil_mem rooted st hv)]
    obtain ⟨u, stk⟩ := st
    rw [segList_push]
    rfl

end Gdoc

namespace Gdoc

open path strings

/-- A run of segments, each preceded by a slash, acts on the buffer as the fold of `segStep`
says. -/
theorem Clean_loop_segments (rooted : Bool) (T : List Str) (hT : ∀ x ∈ T, '/' ∉ x)
    (st : Nat × List Str) (hv : segValid rooted st) (R : Str)
    (hR : R = [] ∨ R.head? = some '/') :
    Clean.loop rooted false (slashJoin T ++ R) (renderSegs rooted (segList st))
        (dotdotOf rooted st)
      = Clean.loop rooted false R
          (renderSegs rooted (segList (T.foldl (segStep rooted) st)))
          (dotdotOf rooted (T.foldl (segStep rooted) st)) := by
  induction T generalizing st with
  | nil => simp [slashJoin]
  | cons a T ih =>
    have ha : '/' ∉ a := hT a (by simp)
    have hT2 : ∀ x ∈ T, '/' ∉ x := fun x hx => hT x (by simp [hx])
    have h1 : slashJoin (a :: T) ++ R = '/' :: (a ++ (slashJoin T ++ R)) := by
      simp [slashJoin]
    have hR2 : slashJoin T ++ R = [] ∨ (slashJoin T ++ R).head? = some '/' := by
      cases T with
      | nil => simpa [slashJoin] using hR
      | cons b T => right; simp [slashJoin]
    rw [h1, Clean_loop_slash, Clean_loop_segment rooted st a _ hv ha hR2,
      ih hT2 _ (segValid_step rooted st a hv ha)]
    rfl

/-- The function `path.Clean`, told on the segments of the path. -/
theorem Clean_eq_cleanSegs (X : Str) :
    Clean X = cleanSegs (X.head? == some '/') (segments X) := by
  cases X with
  | nil => decide
  | cons c X =>
    have hfix : ∀ o : Str, (if o.length = 0 then ['.'] else o) = if o = [] then ['.'] else o := by
      intro o
      cases o <;> simp
    by_cases hc : c = '/'
    · subst hc
      have hrun : Clean.loop true false X ['/'] 1
          = renderSegs true (segList ((segments X).foldl (segStep true) (0, []))) := by
        have h1 := Clean_loop_segments true (segments X) (segments_no_slash X) (0, [])
          (segValid_init true) [] (Or.inl rfl)
        rw [List.append_nil, slashJoin_segments, Clean_loop_slash, Clean_loop_nil] at h1
        exact h1
      have hseg : (segments ('/' :: X)).foldl (segStep true) (0, [])
          = (segments X).foldl (segStep true) (0, []) := by
        rw [segments_cons_slash]
        simp [segStep]
      unfold Clean cleanSegs
      simp only [List.cons_ne_nil, if_false, List.head?_cons, beq_self_eq_true, if_true,
        List.drop_succ_cons, List.drop_zero, hrun, hseg, hfix]
    · have hrun : Clean.loop false false (c :: X) [] 0
          = renderSegs false (segList ((segments (c :: X)).foldl (segStep false) (0, []))) := by
        have h1 := Clean_loop_segments false (segments (c :: X)) (segments_no_slash (c :: X))
          (0, []) (segValid_init false) [] (Or.inl rfl)
        rw [List.append_nil, slashJoin_segments, Clean_loop_slash, Clean_loop_nil] at h1
        exact h1
      have hb : ((c :: X).head? == some '/') = false := by
        simpa using hc
      unfold Clean cleanSegs
      rw [hb]
      simp only [List.cons_ne_nil, if_false, Bool.false_eq_true, hrun, hfix]

end Gdoc

/-! ## Lexical equivalence of paths -/

namespace Gdoc

open path strings

theorem segEquiv_refl (L : List Str) : segEquiv L L := fun _ _ => rfl

theorem segEquiv_symm {L1 L2 : List Str} (h : segEquiv L1 L2) : segEquiv L2 L1 :=
  fun r st => (h r st).symm

theorem segEquiv_trans {L1 L2 L3 : List Str} (h1 : segEquiv L1 L2) (h2 : segEquiv L2 L3) :
    segEquiv L1 L3 := fun r st => (h1 r st).trans (h2 r st)

theorem segEquiv_append {L1 L2 M1 M2 : List Str} (h1 : segEquiv L1 L2)
    (h2 : segEquiv M1 M2) : segEquiv (L1 ++ M1) (L2 ++ M2) := by
  intro r st
  rw [List.foldl_append, List.foldl_append, h1 r st, h2 r _]

theorem segEquiv_skip_cons (s : Str) (hs : s = [] ∨ s = ['.']) (L : List Str) :
    segEquiv (s :: L) L := by
  intro r st
  simp [List.foldl, segStep_skip r st s hs]

theorem segEquiv_skip (s : Str) (hs : s = [] ∨ s = ['.']) : segEquiv [s] [] :=
  segEquiv_skip_cons s hs []

/-- One more segment after the segments of a path read so far. -/
theorem segList_step (rooted : Bool) (e : Nat × List Str) (s : Str)
    (he : ∀ x ∈ e.2, plainSeg x) (st : Nat × List Str) :
    (segList e ++ [s]).foldl (segStep rooted) st
      = (segList (segStep false e s)).foldl (segStep rooted) st := by
  obtain ⟨u, stk⟩ := e
  by_cases h0 : s = [] ∨ s = ['.']
  · rw [segStep_skip false _ s h0, List.foldl_append]
    simp [List.foldl, segStep_skip rooted _ s h0]
  by_cases h2 : s = ['.', '.']
  · subst h2
    cases stk with
    | nil => rw [segStep_up, segList_up]
    | cons top rest =>
      have htop : plainSeg top := he top (by simp)
      rw [segStep_pop, segList_push, List.foldl_append, List.foldl_append]
      simp only [List.foldl]
      rw [segStep_push rooted _ top htop]
      simp [segStep]
  · have hp : s ≠ [] ∧ s ≠ ['.'] := by
      simpa [not_or] using h0
    have hstep : segStep false (u, stk) s = (u, s :: stk) := by
      simp [segStep, hp.1, hp.2, h2]
    rw [hstep, segList_push]

/-- The segments of a path act like the segments of its relative normal form. -/
theorem segEquiv_segList (Y : List Str) (hY : ∀ x ∈ Y, '/' ∉ x) :
    segEquiv Y (segList (Y.foldl (segStep false) (0, []))) := by
  induction Y using List.reverseRecOn with
  | nil =>
    intro r st
    simp [segList]
  | append_singleton Y s ih =>
    have hY2 : ∀ x ∈ Y, '/' ∉ x := fun x hx => hY x (by simp [hx])
    have hval := segValid_foldl false Y hY2 (0, []) (segValid_init false)
    intro r st
    rw [List.foldl_append, List.foldl_append]
    simp only [List.foldl]
    rw [ih hY2 r st]
    have := segList_step r (Y.foldl (segStep false) (0, [])) s hval.2 st
    rw [List.foldl_append] at this
    simpa [List.foldl] using this

theorem segStep_ups_le (rooted : Bool) (st : Nat × List Str) (s : Str) :
    st.1 ≤ (segStep rooted st s).1 := by
  obtain ⟨u, stk⟩ := st
  unfold segStep
  split
  · exact le_refl _
  · split
    · cases stk with
      | nil => cases rooted <;> simp
      | cons top rest => simp
    · simp

/-- A path that does not climb is read alike as a rooted and as a relative path. -/
theorem foldl_rooted_eq (Y : List Str)
    (hup : (Y.foldl (segStep false) (0, [])).1 = 0) :
    Y.foldl (segStep true) (0, []) = Y.foldl (segStep false) (0, []) := by
  induction Y using List.reverseRecOn with
  | nil => rfl
  | append_singleton Y s ih =>
    rw [List.foldl_append] at hup ⊢
    rw [List.foldl_append]
    simp only [List.foldl] at hup ⊢
    have h0 : (Y.foldl (segStep false) (0, [])).1 = 0 := by
      have := segStep_ups_le false (Y.foldl (segStep false) (0, [])) s
      omega
    rw [ih h0]
    generalize Y.foldl (segStep false) (0, []) = e at hup h0 ⊢
    obtain ⟨u, stk⟩ := e
    by_cases h2 : s = ['.', '.']
    · subst h2
      cases stk with
      | nil =>
        rw [segStep_up] at hup
        simp at hup
      | cons top rest => rw [segStep_pop, segStep_pop]
    · simp [segStep, h2]

end Gdoc

namespace Gdoc

open path strings

/-- Paths of the same kind, rooted or relative, with equivalent segments are cleaned to the
same text. -/
theorem Clean_congr (X Y : Str) (hh : (X.head? == some '/') = (Y.head? == some '/'))
    (he : segEquiv (segments X) (segments Y)) : Clean X = Clean Y := by
  rw [Clean_eq_cleanSegs X, Clean_eq_cleanSegs Y, hh]
  unfold cleanSegs
  rw [he _ (0, [])]

theorem segList_no_slash (rooted : Bool) (st : Nat × List Str) (hv : segValid rooted st) :
    ∀ x ∈ segList st, '/' ∉ x := by
  intro x hx
  rcases List.mem_append.mp hx with h1 | h1
  · rw [List.eq_of_mem_replicate h1]
    decide
  · exact (hv.2 x (List.mem_reverse.mp h1)).2.1

theorem segments_reqDir (L : List Str) (hL : L ≠ []) (h : ∀ x ∈ L, '/' ∉ x) :
    segments (reqDir L) = L := by
  obtain ⟨a, T, rfl⟩ := List.exists_cons_of_ne_nil hL
  exact segments_segPath a T (h a (by simp)) (fun x hx => h x (by simp [hx]))

theorem head_beq_false (Y : Str) (hY : Y.head? ≠ some '/') :
    (Y.head? == some '/') = false := by
  cases Y with
  | nil => rfl
  | cons c Y =>
    have hc : c ≠ '/' := fun h => hY (by simp [h])
    simp [hc]

theorem head_beq_true (Y : Str) (hY : Y.head? = some '/') :
    (Y.head? == some '/') = true := by
  simp [hY]

/-- The cleaned form of a relative path, by the segments `L` it is left with: `.` when there
are none. -/
theorem Clean_rel_form (Y : Str) (hY : Y.head? ≠ some '/') :
    segValid false ((segments Y).foldl (segStep false) (0, [])) ∧
    ((segList ((segments Y).foldl (segStep false) (0, [])) = [] ∧ Clean Y = ['.']) ∨
     (segList ((segments Y).foldl (segStep false) (0, [])) ≠ [] ∧
      Clean Y = reqDir (segList ((segments Y).foldl (segStep false) (0, []))))) := by
  have hval := segValid_foldl false (segments Y) (segments_no_slash Y) (0, [])
    (segValid_init false)
  refine ⟨hval, ?_⟩
  rw [Clean_eq_cleanSegs Y, head_beq_false Y hY]
  unfold cleanSegs
  generalize (segments Y).foldl (segStep false) (0, []) = e at hval ⊢
  by_cases hL : segList e = []
  · left
    refine ⟨hL, ?_⟩
    simp [renderSegs, hL, reqDir]
  · right
    refine ⟨hL, ?_⟩
    have hr := reqDir_ne_nil (segList e) hL (segList_ne_nil_mem false e hval)
    simp [renderSegs, hr]

/-- Cleaning a relative path keeps its lexical meaning. -/
theorem segEquiv_Clean_rel (Y : Str) (hY : Y.head? ≠ some '/') :
    segEquiv (segments (Clean Y)) (segments Y) := by
  obtain ⟨hval, h⟩ := Clean_rel_form Y hY
  have hE := segEquiv_segList (segments Y) (segments_no_slash Y)
  rcases h with ⟨hL, hC⟩ | ⟨hL, hC⟩
  · rw [hC]
    rw [hL] at hE
    have h1 : segments ['.'] = [['.']] := by decide
    rw [h1]
    exact segEquiv_trans (segEquiv_skip ['.'] (Or.inr rfl)) (segEquiv_symm hE)
  · rw [hC, segments_reqDir _ hL (segList_no_slash false _ hval)]
    exact segEquiv_symm hE

/-- The cleaned form of a relative path is relative. -/
theorem Clean_rel_head (Y : Str) (hY : Y.head? ≠ some '/') : (Clean Y).head? ≠ some '/' := by
  obtain ⟨hval, h⟩ := Clean_rel_form Y hY
  rcases h with ⟨-, hC⟩ | ⟨hL, hC⟩
  · rw [hC]
    decide
  · rw [hC]
    obtain ⟨a, T, haT⟩ := List.exists_cons_of_ne_nil hL
    rw [haT]
    have ha1 : a ≠ [] := segList_ne_nil_mem false _ hval a (by rw [haT]; simp)
    have ha2 : '/' ∉ a := segList_no_slash false _ hval a (by rw [haT]; simp)
    obtain ⟨c, a2, rfl⟩ := List.exists_cons_of_ne_nil ha1
    have hc : c ≠ '/' := fun h => ha2 (by simp [h])
    simp [reqDir, segPath, hc]

/-- The cleaned form of a rooted path that does not climb, by the segments it is left with. -/
theorem Clean_rooted_form (Y : Str) (hY : Y.head? = some '/')
    (hup : ((segments Y).foldl (segStep false) (0, [])).1 = 0) :
    Clean Y = '/' :: reqDir (segList ((segments Y).foldl (segStep false) (0, []))) := by
  rw [Clean_eq_cleanSegs Y, head_beq_true Y hY]
  unfold cleanSegs
  rw [foldl_rooted_eq (segments Y) hup]
  simp [renderSegs]

/-- Cleaning a rooted path that does not climb keeps its lexical meaning. -/
theorem segEquiv_Clean_rooted (Y : Str) (hY : Y.head? = some '/')
    (hup : ((segments Y).foldl (segStep false) (0, [])).1 = 0) :
    segEquiv (segments (Clean Y)) (segments Y) := by
  have hval := segValid_foldl false (segments Y) (segments_no_slash Y) (0, [])
    (segValid_init false)
  have hE := segEquiv_segList (segments Y) (segments_no_slash Y)
  rw [Clean_rooted_form Y hY hup, segments_cons_slash]
  generalize (segments Y).foldl (segStep false) (0, []) = e at hval hE ⊢
  by_cases hL : segList e = []
  · rw [hL] at hE ⊢
    have h1 : segments (reqDir []) = [[]] := by decide
    rw [h1]
    refine segEquiv_trans ?_ (segEquiv_symm hE)
    exact segEquiv_trans (segEquiv_skip_cons [] (Or.inl rfl) _) (segEquiv_skip [] (Or.inl rfl))
  · rw [segments_reqDir _ hL (segList_no_slash false _ hval)]
    exact segEquiv_trans (segEquiv_skip_cons [] (Or.inl rfl) _) (segEquiv_symm hE)

/-- The path `path.Join(".", q)` is the cleaned form of `./q`. -/
theorem Join_dot (q : Str) : Join [['.'], q] = Clean ('.' :: '/' :: q) := by
  simp [Join, Join.loop]

theorem foldl_dot_slash (q : Str) :
    (segments ('.' :: '/' :: q)).foldl (segStep false) (0, [])
      = (segments q).foldl (segStep false) (0, []) := by
  have h1 : segments ('.' :: '/' :: q) = ['.'] :: segments q := by
    simp [segments]
  rw [h1]
  simp [List.foldl, segStep]

/-- A path that does not climb leaves no `..` in front. -/
theorem ups_of_not_climbs (q : Str) (h : ¬ climbs q) :
    ((segments q).foldl (segStep false) (0, [])).1 = 0 := by
  by_contra hne
  apply h
  unfold climbs
  rw [Join_dot]
  obtain ⟨hval, hf⟩ := Clean_rel_form ('.' :: '/' :: q) (by simp)
  rw [foldl_dot_slash] at hval hf
  generalize (segments q).foldl (segStep false) (0, []) = e at hval hf hne
  obtain ⟨u, stk⟩ := e
  obtain ⟨u2, rfl⟩ : ∃ u2, u = u2 + 1 := ⟨u - 1, by simp at hne; omega⟩
  have hL : segList (u2 + 1, stk) = ['.', '.'] :: (List.replicate u2 ['.', '.'] ++ stk.reverse) := by
    simp [segList, List.replicate_succ]
  rcases hf with ⟨h0, -⟩ | ⟨h0, hC⟩
  · rw [hL] at h0
    exact absurd h0 (by simp)
  · rw [hC, segments_reqDir _ h0 (segList_no_slash false _ hval), hL]
    rfl

/-- A path that neither climbs nor comes to nothing has plain segments as its relative normal
form. -/
theorem Join_dot_plain (q : Str) (hnc : ¬ climbs q) (hne : Join [['.'], q] ≠ ['.']) :
    ∃ x xs, plainSeg x ∧ (∀ y ∈ xs, plainSeg y) ∧ Join [['.'], q] = segPath x xs := by
  have hup := ups_of_not_climbs q hnc
  rw [Join_dot] at hne ⊢
  obtain ⟨hval, hf⟩ := Clean_rel_form ('.' :: '/' :: q) (by simp)
  rw [foldl_dot_slash] at hval hf
  generalize (segments q).foldl (segStep false) (0, []) = e at hval hf hup
  obtain ⟨u, stk⟩ := e
  simp only at hup
  subst hup
  have hL : segList (0, stk) = stk.reverse := by simp [segList]
  rw [hL] at hf
  rcases hf with ⟨-, hC⟩ | ⟨h0, hC⟩
  · exact absurd hC hne
  · obtain ⟨x, xs, hx⟩ := List.exists_cons_of_ne_nil h0
    have hpl : ∀ y ∈ x :: xs, plainSeg y := by
      intro y hy
      rw [← hx] at hy
      exact hval.2 y (List.mem_reverse.mp hy)
    refine ⟨x, xs, hpl x (by simp), fun y hy => hpl y (by simp [hy]), ?_⟩
    rw [hC, hx]
    rfl

end Gdoc

/-! ## Joined paths, by their segments -/

namespace Gdoc

open path strings

theorem foldl_push_plain (rooted : Bool) (M : List Str) (hM : ∀ y ∈ M, plainSeg y)
    (st : Nat × List Str) :
    M.foldl (segStep rooted) st = (st.1, M.reverse ++ st.2) := by
  induction M generalizing st with
  | nil => simp
  | cons a M ih =>
    simp only [List.foldl]
    rw [segStep_push rooted st a (hM a (by simp)), ih (fun y hy => hM y (by simp [hy]))]
    simp

theorem Clean_ne_nil (X : Str) : Clean X ≠ [] := by
  rw [Clean_eq_cleanSegs]
  unfold cleanSegs
  split
  · simp
  · assumption

/-- The cleaned form of a path is rooted exactly when the path is. -/
theorem Clean_head_beq (Y : Str) :
    ((Clean Y).head? == some '/') = (Y.head? == some '/') := by
  by_cases hY : Y.head? = some '/'
  · rw [head_beq_true Y hY, head_beq_true _ (Clean_rooted_head Y hY)]
  · rw [head_beq_false Y hY, head_beq_false _ (Clean_rel_head Y hY)]

/-- Cleaning a path that does not escape its root keeps its lexical meaning. -/
theorem segEquiv_Clean (Y : Str)
    (hup : Y.head? = some '/' → ((segments Y).foldl (segStep false) (0, [])).1 = 0) :
    segEquiv (segments (Clean Y)) (segments Y) := by
  by_cases hY : Y.head? = some '/'
  · exact segEquiv_Clean_rooted Y hY (hup hY)
  · exact segEquiv_Clean_rel Y hY

theorem head_append_of_ne_nil (A B : Str) (hA : A ≠ []) : (A ++ B).head? = A.head? := by
  obtain ⟨c, A2, rfl⟩ := List.exists_cons_of_ne_nil hA
  rfl

theorem reqDir_snoc_ne_nil (L : List Str) (s : Str) (hs : s ≠ []) : reqDir (L ++ [s]) ≠ [] := by
  cases L with
  | nil => simpa [reqDir, segPath, slashJoin] using hs
  | cons a L => simp [reqDir, segPath, slashJoin_append, slashJoin]

/-- A path equivalent to `W/x/...`, where `W` ends in a plain segment and `x/...` are plain
segments, is cleaned to the cleaned form of `W` followed by `/x/...`. -/
theorem Clean_under (W V : Str) (T : List Str) (s x : Str) (xs : List Str)
    (hh : (V.head? == some '/') = (W.head? == some '/'))
    (hW : segments W = T ++ [s]) (hs : plainSeg s) (hx : ∀ y ∈ x :: xs, plainSeg y)
    (he : segEquiv (segments V) (segments W ++ x :: xs)) :
    Clean V = Clean W ++ '/' :: segPath x xs := by
  rw [Clean_eq_cleanSegs V, Clean_eq_cleanSegs W, hh]
  generalize (W.head? == some '/') = r
  unfold cleanSegs
  rw [he r (0, []), List.foldl_append, hW, List.foldl_append]
  simp only [List.foldl]
  generalize T.foldl (segStep r) (0, []) = b
  have hf := foldl_push_plain r (x :: xs) hx (b.1, s :: b.2)
  simp only [List.foldl] at hf
  rw [segStep_push r b s hs, hf]
  obtain ⟨u, stk⟩ := b
  have hL1 : segList (u, (x :: xs).reverse ++ s :: stk)
      = (segList (u, stk) ++ [s]) ++ (x :: xs) := by
    simp [segList]
  have hL2 : segList (u, s :: stk) = segList (u, stk) ++ [s] := segList_push u stk s
  simp only [hL1, hL2]
  have hne := reqDir_snoc_ne_nil (segList (u, stk)) s hs.1
  have hren : renderSegs r ((segList (u, stk) ++ [s]) ++ (x :: xs))
      = renderSegs r (segList (u, stk) ++ [s]) ++ '/' :: segPath x xs := by
    unfold renderSegs
    rw [reqDir_append _ _ (by simp)]
    cases r <;> simp [slashJoin, segPath]
  rw [hren]
  have hne2 : renderSegs r (segList (u, stk) ++ [s]) ≠ [] := by
    unfold renderSegs
    cases r
    · simpa using hne
    · simp
  simp [hne2]

theorem Join_two (D I : Str) (hI : I ≠ []) :
    Join [D, I] = Clean (if D = [] then I else D ++ '/' :: I) := by
  have hpos := List.length_pos.mpr hI
  have hsum : (([D, I] : List Str).map List.length).sum ≠ 0 := by
    simp only [List.map_cons, List.map_nil, List.sum_cons, List.sum_nil]
    omega
  unfold Join
  rw [if_neg hsum]
  by_cases hD : D = []
  · subst hD
    simp [Join.loop, hI]
  · have hDpos := List.length_pos.mpr hD
    simp [Join.loop, hD, hDpos]

theorem Join_three (D A B : Str) (hA : A ≠ []) :
    Join [D, A, B] = Clean (if D = [] then A ++ '/' :: B else D ++ '/' :: (A ++ '/' :: B)) := by
  have hpos := List.length_pos.mpr hA
  have hsum : (([D, A, B] : List Str).map List.length).sum ≠ 0 := by
    simp only [List.map_cons, List.map_nil, List.sum_cons, List.sum_nil]
    omega
  unfold Join
  rw [if_neg hsum]
  by_cases hD : D = []
  · subst hD
    simp [Join.loop, hA, hpos]
  · have hDpos := List.length_pos.mpr hD
    simp [Join.loop, hD, hDpos]

/-- The relative normal form of a path has the lexical meaning of the path. -/
theorem segEquiv_Join_dot (q : Str) : segEquiv (segments (Join [['.'], q])) (segments q) := by
  rw [Join_dot]
  have h1 : segments ('.' :: '/' :: q) = ['.'] :: segments q := by
    simp [segments]
  have := segEquiv_Clean_rel ('.' :: '/' :: q) (by simp)
  rw [h1] at this
  exact segEquiv_trans this (segEquiv_skip_cons ['.'] (Or.inr rfl) _)

end Gdoc

namespace Gdoc

open path strings

theorem segments_source : segments "_source".toList = ["_source".toList] := by decide

/-- Joining `D` and the cleaned form of `A/q`, where `A` ends in the segment `_source` and `q`
means the plain segments `x/...`: the cleaned form of `D/A`, followed by `/x/...`. -/
theorem Join_under_source (D A q : Str) (T : List Str) (x : Str) (xs : List Str)
    (hA : A ≠ []) (hAseg : segments A = T ++ ["_source".toList])
    (hup : A.head? = some '/' → ((segments A).foldl (segStep false) (0, [])).1 = 0)
    (hx : ∀ y ∈ x :: xs, plainSeg y) (hq : segEquiv (segments q) (x :: xs)) :
    Join [D, Clean (A ++ '/' :: q)]
      = Clean (if D = [] then A else D ++ '/' :: A) ++ '/' :: segPath x xs := by
  have hS : plainSeg "_source".toList := by decide
  have hinner : segEquiv (segments (Clean (A ++ '/' :: q))) (segments A ++ x :: xs) := by
    have h1 : segEquiv (segments (Clean (A ++ '/' :: q))) (segments (A ++ '/' :: q)) := by
      apply segEquiv_Clean
      intro hr
      rw [head_append_of_ne_nil A _ hA] at hr
      rw [segments_append, List.foldl_append, hq false _, foldl_push_plain false _ hx]
      exact hup hr
    rw [segments_append] at h1
    exact segEquiv_trans h1 (segEquiv_append (segEquiv_refl _) hq)
  rw [Join_two D _ (Clean_ne_nil _)]
  by_cases hD : D = []
  · rw [if_pos hD, if_pos hD]
    refine Clean_under A _ T "_source".toList x xs ?_ hAseg hS hx hinner
    rw [Clean_head_beq, head_append_of_ne_nil A _ hA]
  · rw [if_neg hD, if_neg hD]
    refine Clean_under (D ++ '/' :: A) _ (segments D ++ T) "_source".toList x xs ?_ ?_ hS hx ?_
    · rw [head_append_of_ne_nil D _ hD, head_append_of_ne_nil D _ hD]
    · rw [segments_append, hAseg, List.append_assoc]
    · rw [segments_append, segments_append, List.append_assoc]
      exact segEquiv_append (segEquiv_refl _) hinner

/-- The source directory of a version, as the cleaned form of `DocsDir/version/_source`. -/
theorem sourceDir_eq (h : Handler) (version : Str) :
    h.sourceDir version
      = Clean (if h.DocsDir = [] then
            (if (if version = h.DefaultVersionName then [] else version) = [] then
              "_source".toList
            else (if version = h.DefaultVersionName then [] else version)
              ++ '/' :: "_source".toList)
          else h.DocsDir ++ '/' ::
            (if (if version = h.DefaultVersionName then [] else version) = [] then
              "_source".toList
            else (if version = h.DefaultVersionName then [] else version)
              ++ '/' :: "_source".toList)) := by
  unfold Handler.sourceDir
  by_cases hd : version = h.DefaultVersionName
  · rw [if_pos hd, if_pos hd]
    simp only [if_true]
    exact Join_two _ _ (by decide)
  · rw [if_neg hd, if_neg hd]
    by_cases hv0 : version = []
    · simp only [hv0, if_true]
      by_cases hD : h.DocsDir = []
      · rw [if_pos hD, hD]
        decide
      · rw [if_neg hD]
        have hpos := List.length_pos.mpr hD
        have hsum : (([h.DocsDir, [], "_source".toList] : List Str).map List.length).sum
            ≠ 0 := by simp
        have hloop : Join.loop [h.DocsDir, [], "_source".toList] []
            = h.DocsDir ++ '/' :: ('/' :: "_source".toList) := by
          simp [Join.loop, hD, hpos]
        unfold Join
        rw [if_neg hsum, hloop]
        apply Clean_congr
        · rw [head_append_of_ne_nil _ _ hD, head_append_of_ne_nil _ _ hD]
        · rw [segments_append, segments_append, segments_cons_slash]
          exact segEquiv_append (segEquiv_refl _) (segEquiv_skip_cons [] (Or.inl rfl) _)
    · simp only [hv0, if_false]
      rw [Join_three _ _ _ hv0]

/-- The content path, with the joins of `GetContent` written out. -/
theorem GetContentPath_raw (h : Handler) (version p : Str) :
    h.GetContentPath version p
      = Join [h.DocsDir, Clean
          ((if (if version = h.DefaultVersionName then [] else version) = [] then
              "_source".toList
            else (if version = h.DefaultVersionName then [] else version)
              ++ '/' :: "_source".toList) ++ '/' :: TrimSuffix p (Ext p))] ++ ".md".toList := by
  rw [GetContentPath_eq, Join_three _ _ _ (by decide)]
  generalize (if version = h.DefaultVersionName then [] else version) = v
  by_cases hv0 : v = []
  · simp [hv0]
  · simp [hv0]

/-- The source directory holds the file of every content path that stays inside: for a
version that is the default one or does not escape its root, and a content path that means
the plain segments `x/...`. -/
theorem GetContentPath_of_segEquiv (h : Handler) (version p x : Str) (xs : List Str)
    (hv : version = h.DefaultVersionName ∨ ¬ escapesRoot version)
    (hx : ∀ y ∈ x :: xs, plainSeg y)
    (hq : segEquiv (segments (TrimSuffix p (Ext p))) (x :: xs)) :
    h.GetContentPath version p = h.sourceDir version ++ '/' :: (segPath x xs ++ ".md".toList) := by
  rw [GetContentPath_raw, sourceDir_eq]
  have hfin : ∀ (A : Str) (T : List Str), A ≠ [] → segments A = T ++ ["_source".toList] →
      (A.head? = some '/' → ((segments A).foldl (segStep false) (0, [])).1 = 0) →
      Join [h.DocsDir, Clean (A ++ '/' :: TrimSuffix p (Ext p))] ++ ".md".toList
        = Clean (if h.DocsDir = [] then A else h.DocsDir ++ '/' :: A)
            ++ '/' :: (segPath x xs ++ ".md".toList) := by
    intro A T hA hAseg hup
    rw [Join_under_source h.DocsDir A _ T x xs hA hAseg hup hx hq]
    simp
  by_cases hv0 : (if version = h.DefaultVersionName then [] else version) = []
  · simp only [hv0, if_true]
    exact hfin "_source".toList [] (by decide) (by decide) (by intro hr; exact absurd hr (by decide))
  · simp only [hv0, if_false]
    have hd : version ≠ h.DefaultVersionName := by
      intro hd
      exact hv0 (by rw [if_pos hd])
    rw [if_neg hd] at hv0 ⊢
    refine hfin (version ++ '/' :: "_source".toList) (segments version) (by simp)
      (by rw [segments_append, segments_source]) ?_
    intro hr
    rw [head_append_of_ne_nil _ _ hv0] at hr
    have hnc : ¬ climbs version := fun hc => (hv.resolve_left hd) ⟨hr, hc⟩
    rw [segments_append, segments_source, List.foldl_append,
      foldl_push_plain false _ (by simpa using (by decide : plainSeg "_source".toList))]
    exact ups_of_not_climbs version hnc

end Gdoc

/-! ## The content file lies under the source directory, in general -/

namespace Gdoc

open path strings

/-- C7 fails as stated: for the version `v2` and the content path `../secret.md` the file
looked up is `storage/docs/v2/secret.md`, outside `storage/docs/v2/_source`; the request
`../x.md` makes `Handle` look up `storage/docs/x.md`, outside `storage/docs/_source`; and for
the empty content path the file is `storage/docs/v2/_source.md`, beside the source directory
and not inside it. -/
theorem GetContentPath_escape_counterexample :
    DefaultHandler.GetContentPath "v2".toList "../secret.md".toList
        = "storage/docs/v2/secret.md".toList
      ∧ DefaultHandler.sourceDir "v2".toList = "storage/docs/v2/_source".toList
      ∧ ¬ (DefaultHandler.sourceDir "v2".toList
            <+: DefaultHandler.GetContentPath "v2".toList "../secret.md".toList)
      ∧ DefaultHandler.GetContentPath
            (DefaultHandler.resolve exLib exFS "../x.md".toList).version
            (Join [(DefaultHandler.resolve exLib exFS "../x.md".toList).dirName,
              (DefaultHandler.resolve exLib exFS "../x.md".toList).baseName])
          = "storage/docs/x.md".toList
      ∧ DefaultHandler.sourceDir (DefaultHandler.resolve exLib exFS "../x.md".toList).version
          = "storage/docs/_source".toList
      ∧ DefaultHandler.GetContentPath "v2".toList [] = "storage/docs/v2/_source.md".toList
      ∧ ¬ ((DefaultHandler.sourceDir "v2".toList ++ ['/'])
            <+: DefaultHandler.GetContentPath "v2".toList []) := by
  decide

/-- C7, amended: for a version that is the default one or does not escape its root (is not a
rooted path that climbs above the root through `..`), and a content path whose extension-free
form `q`, read as the relative path `path.Join(".", q)`, does not climb through `..` and is
not `.`, the Markdown file `GetContent` looks up is `path.Join(".", q)` followed by `.md`,
inside the source directory of the version: `<DocsDir>/<version>/_source`, or
`<DocsDir>/_source` for the default version. -/
theorem GetContentPath_under_sourceDir (h : Handler) (version p : Str)
    (hv : version = h.DefaultVersionName ∨ ¬ escapesRoot version)
    (hnc : ¬ climbs (TrimSuffix p (Ext p)))
    (hne : Join [['.'], TrimSuffix p (Ext p)] ≠ ['.']) :
    h.GetContentPath version p
        = h.sourceDir version
            ++ '/' :: (Join [['.'], TrimSuffix p (Ext p)] ++ ".md".toList)
      ∧ (h.sourceDir version ++ ['/']) <+: h.GetContentPath version p
      ∧ ".md".toList <:+ h.GetContentPath version p := by
  obtain ⟨x, xs, hx, hxs, hX⟩ := Join_dot_plain _ hnc hne
  have hall : ∀ y ∈ x :: xs, plainSeg y := by
    intro y hy
    rcases List.mem_cons.mp hy with rfl | hy
    · exact hx
    · exact hxs y hy
  have hq : segEquiv (segments (TrimSuffix p (Ext p))) (x :: xs) := by
    have h1 := segEquiv_Join_dot (TrimSuffix p (Ext p))
    rw [hX, segments_segPath x xs hx.2.1 (fun y hy => (hxs y hy).2.1)] at h1
    exact segEquiv_symm h1
  have hmain := GetContentPath_of_segEquiv h version p x xs hv hall hq
  rw [hX]
  refine ⟨hmain, ?_, ?_⟩
  · rw [hmain]
    exact ⟨segPath x xs ++ ".md".toList, by simp⟩
  · rw [hmain]
    exact ⟨h.sourceDir version ++ '/' :: segPath x xs, by simp⟩

/-- The amended C7 at the example tree: the rooted content path `/api/guide.md` of `v2`, as
`Handle` passes it, is looked up at `api/guide.md` inside `storage/docs/v2/_source`. -/
theorem GetContentPath_under_sourceDir_witness :
    DefaultHandler.GetContentPath "v2".toList "/api/guide.md".toList
        = DefaultHandler.sourceDir "v2".toList
            ++ '/' :: (Join [['.'], TrimSuffix "/api/guide.md".toList
                (Ext "/api/guide.md".toList)] ++ ".md".toList)
      ∧ (DefaultHandler.sourceDir "v2".toList ++ ['/'])
          <+: DefaultHandler.GetContentPath "v2".toList "/api/guide.md".toList
      ∧ ".md".toList <:+ DefaultHandler.GetContentPath "v2".toList "/api/guide.md".toList :=
  GetContentPath_under_sourceDir DefaultHandler "v2".toList "/api/guide.md".toList
    (Or.inr (by decide)) (by decide) (by decide)

end Gdoc

/-! ## Requests of the default version, in general -/

namespace Gdoc

open path strings

theorem last_slash_cases (X : Str) : '/' ∉ X ∨ ∃ P f, X = P ++ '/' :: f ∧ '/' ∉ f := by
  induction X with
  | nil => left; simp
  | cons c X ih =>
    rcases ih with h | ⟨P, f, hX, hf⟩
    · by_cases hc : c = '/'
      · right
        exact ⟨[], X, by simp [hc], h⟩
      · left
        simp only [List.mem_cons, not_or]
        exact ⟨fun h2 => hc h2.symm, h⟩
    · right
      exact ⟨c :: P, f, by simp [hX], hf⟩

theorem TrimSuffix_no_slash (f suffix : Str) (hf : '/' ∉ f) : '/' ∉ TrimSuffix f suffix := by
  unfold TrimSuffix
  split
  · exact fun h => hf (List.mem_of_mem_take h)
  · exact hf

theorem segments_root : segments "/".toList = [[], []] := by decide

theorem segEquiv_root_nil : segEquiv [[], []] [] :=
  segEquiv_trans (segEquiv_skip_cons [] (Or.inl rfl) _) (segEquiv_skip [] (Or.inl rfl))

/-- The content path of a file `f` joined to a directory `W`, without its extension, means
the directory followed by the stem of `f`. -/
theorem segEquiv_TrimExt_Clean (W f : Str) (hW : W ≠ []) (hf : plainSeg f)
    (hup : W.head? = some '/' → ((segments W).foldl (segStep false) (0, [])).1 = 0) :
    segEquiv (segments (TrimSuffix (Clean (W ++ '/' :: f)) (Ext (Clean (W ++ '/' :: f)))))
      (segments W ++ [TrimSuffix f (Ext f)]) := by
  have hstem : '/' ∉ TrimSuffix f (Ext f) := TrimSuffix_no_slash f _ hf.2.1
  have hLW : segEquiv (segList ((segments W).foldl (segStep (W.head? == some '/')) (0, [])))
      (segments W) := by
    by_cases hr : W.head? = some '/'
    · rw [head_beq_true W hr, foldl_rooted_eq _ (hup hr)]
      exact segEquiv_symm (segEquiv_segList _ (segments_no_slash W))
    · rw [head_beq_false W hr]
      exact segEquiv_symm (segEquiv_segList _ (segments_no_slash W))
  have hval := segValid_foldl (W.head? == some '/') (segments W) (segments_no_slash W) (0, [])
    (segValid_init _)
  have hclean : Clean (W ++ '/' :: f)
      = renderSegs (W.head? == some '/')
          (segList ((segments W).foldl (segStep (W.head? == some '/')) (0, [])) ++ [f]) := by
    rw [Clean_eq_cleanSegs, head_append_of_ne_nil W _ hW, segments_append,
      segments_of_no_slash f hf.2.1]
    generalize (W.head? == some '/') = r
    unfold cleanSegs
    rw [List.foldl_append]
    simp only [List.foldl]
    rw [segStep_push _ _ f hf, segList_push]
    have hne := reqDir_snoc_ne_nil (segList ((segments W).foldl (segStep r) (0, []))) f hf.1
    have hne2 : renderSegs r (segList ((segments W).foldl (segStep r) (0, [])) ++ [f])
        ≠ [] := by
      unfold renderSegs
      cases r
      · simpa using hne
      · simp
    simp only [Prod.mk.eta]
    rw [if_neg hne2]
  rw [hclean]
  generalize (segments W).foldl (segStep (W.head? == some '/')) (0, []) = b at hLW hval
  generalize (W.head? == some '/') = r at hLW hval
  by_cases hL : segList b = []
  · rw [hL] at hLW ⊢
    have hgoal : segEquiv [TrimSuffix f (Ext f)] (segments W ++ [TrimSuffix f (Ext f)]) := by
      have := segEquiv_append hLW (segEquiv_refl [TrimSuffix f (Ext f)])
      simpa using this
    cases r
    · have h1 : renderSegs false ([] ++ [f]) = f := by
        simp [renderSegs, reqDir, segPath, slashJoin]
      rw [h1, segments_of_no_slash _ hstem]
      exact hgoal
    · have h1 : renderSegs true ([] ++ [f]) = [] ++ '/' :: f := by
        simp [renderSegs, reqDir, segPath, slashJoin]
      rw [h1, TrimSuffix_Ext_append [] f hf.2.1, segments_append, segments_of_no_slash _ hstem]
      exact segEquiv_trans (segEquiv_skip_cons [] (Or.inl rfl) _) hgoal
  · have h1 : renderSegs r (segList b ++ [f]) = renderSegs r (segList b) ++ '/' :: f := by
      unfold renderSegs
      rw [reqDir_append _ _ hL]
      cases r <;> simp [slashJoin]
    rw [h1, TrimSuffix_Ext_append _ f hf.2.1, segments_append, segments_of_no_slash _ hstem]
    refine segEquiv_append ?_ (segEquiv_refl _)
    cases r
    · have h2 : renderSegs false (segList b) = reqDir (segList b) := rfl
      rw [h2, segments_reqDir _ hL (segList_no_slash false b hval)]
      exact hLW
    · have h2 : renderSegs true (segList b) = '/' :: reqDir (segList b) := rfl
      rw [h2, segments_cons_slash, segments_reqDir _ hL (segList_no_slash true b hval)]
      exact segEquiv_trans (segEquiv_skip_cons [] (Or.inl rfl) _) hLW

/-- The content path `Handle` joins from the directory left by the version clean-up and the
file name `f`, without its extension, means the request directory followed by the stem of
`f`, provided the default version name does not occur in the directory. -/
theorem segEquiv_content (dname pre f dflt : Str) (hf : plainSeg f)
    (hdir1 : segEquiv (segments dname) (segments pre)) (hdir2 : dname ≠ [])
    (hdir3 : dname.head? = some '/' →
      ((segments dname).foldl (segStep false) (0, [])).1 = 0)
    (hocc : dflt = [] ∨ dname = "/".toList ∨ Index dname dflt = none) :
    segEquiv
      (segments (TrimSuffix (Join [Replace dname dflt [] (-1), f])
        (Ext (Join [Replace dname dflt [] (-1), f]))))
      (segments pre ++ [TrimSuffix f (Ext f)]) := by
  have hdn : Replace dname dflt [] (-1) = dname
      ∨ (Replace dname dflt [] (-1) = [] ∧ dname = "/".toList) := by
    rcases hocc with h0 | h0 | h0
    · exact Or.inl (Replace_of_absent _ _ (Or.inl h0))
    · by_cases hD : dflt = "/".toList
      · right
        refine ⟨?_, h0⟩
        rw [h0, hD]
        exact Replace_self _ (by decide)
      · left
        apply Replace_of_absent
        by_cases h1 : dflt = []
        · exact Or.inl h1
        · right
          rw [h0]
          exact Index_slash_of_ne _ h1 hD
    · exact Or.inl (Replace_of_absent _ _ (Or.inr h0))
  rcases hdn with hdn | ⟨hdn, hroot⟩
  · rw [hdn, Join_two dname f hf.1, if_neg hdir2]
    exact segEquiv_trans (segEquiv_TrimExt_Clean dname f hdir2 hf hdir3)
      (segEquiv_append hdir1 (segEquiv_refl _))
  · rw [hdn, Join_nil_seg f hf, segments_of_no_slash _ (TrimSuffix_no_slash f _ hf.2.1)]
    rw [hroot, segments_root] at hdir1
    have h1 : segEquiv [] (segments pre) := segEquiv_trans (segEquiv_symm segEquiv_root_nil) hdir1
    have := segEquiv_append h1 (segEquiv_refl [TrimSuffix f (Ext f)])
    simpa using this

/-- The directory `Handle` takes from a request means the text of the request up to its last
slash, provided that text does not escape the root. -/
theorem requestDir_facts (name : Str)
    (hup : (Split name).1.head? = some '/' →
      ((segments (Split name).1).foldl (segStep false) (0, [])).1 = 0) :
    segEquiv (segments (requestDir name)) (segments (Split name).1)
      ∧ requestDir name ≠ []
      ∧ ((requestDir name).head? = some '/' →
          ((segments (requestDir name)).foldl (segStep false) (0, [])).1 = 0) := by
  have hE := segEquiv_Clean (Split name).1 hup
  have hDir : Dir name = Clean (Split name).1 := rfl
  unfold requestDir
  rw [hDir]
  by_cases hdot : Clean (Split name).1 = ".".toList
  · rw [if_pos hdot]
    rw [hdot] at hE
    refine ⟨?_, by decide, fun _ => by decide⟩
    rw [segments_root]
    have h1 : segments ".".toList = [['.']] := by decide
    rw [h1] at hE
    exact segEquiv_trans segEquiv_root_nil
      (segEquiv_trans (segEquiv_symm (segEquiv_skip ['.'] (Or.inr rfl))) hE)
  · rw [if_neg hdot]
    refine ⟨hE, Clean_ne_nil _, ?_⟩
    intro hr
    have hr2 : (Split name).1.head? = some '/' := by
      by_contra hcon
      exact Clean_rel_head _ hcon hr
    rw [hE false (0, [])]
    exact hup hr2

/-- The parts of a request that ends in a file name. -/
theorem Split_shape (name : Str) :
    ((Split name).1 = [] ∧ (Split name).2 = name ∧ '/' ∉ name)
      ∨ ∃ P f, name = P ++ '/' :: f ∧ '/' ∉ f ∧ (Split name).1 = P ++ ['/']
          ∧ (Split name).2 = f := by
  rcases last_slash_cases name with h | ⟨P, f, hX, hf⟩
  · left
    rw [Split_of_no_slash name h]
    exact ⟨rfl, rfl, h⟩
  · right
    refine ⟨P, f, hX, hf, ?_, ?_⟩
    · rw [hX, Split_append P f hf]
    · rw [hX, Split_append P f hf]

/-- The directory text of a request that does not escape its root does not either. -/
theorem Split_ups (name : Str) (hesc : ¬ escapesRoot name) :
    (Split name).1.head? = some '/' →
      ((segments (Split name).1).foldl (segStep false) (0, [])).1 = 0 := by
  intro hr
  rcases Split_shape name with ⟨h1, -, -⟩ | ⟨P, f, hX, hf, h1, -⟩
  · rw [h1] at hr
    exact absurd hr (by simp)
  · rw [h1] at hr ⊢
    have hname : name.head? = some '/' := by
      rw [hX]
      cases P with
      | nil => rfl
      | cons c P => simpa using hr
    have hnc : ¬ climbs name := fun hc => hesc ⟨hname, hc⟩
    have h0 := ups_of_not_climbs name hnc
    rw [hX, segments_append, segments_of_no_slash f hf, List.foldl_append] at h0
    have h2 : segments (P ++ ['/']) = segments P ++ [[]] := by
      rw [segments_append]
      rfl
    rw [h2, List.foldl_append]
    simp only [List.foldl] at h0 ⊢
    rw [segStep_skip _ _ [] (Or.inl rfl)]
    have := segStep_ups_le false ((segments P).foldl (segStep false) (0, [])) f
    omega

/-- The base name, the extension and the extension-free form of a request that ends in a plain
file name. -/
theorem Split_file (name : Str) (hf : plainSeg (Split name).2) :
    Base name = (Split name).2 ∧ Ext name = Ext (Split name).2
      ∧ segEquiv (segments (TrimSuffix name (Ext name)))
          (segments (Split name).1 ++ [TrimSuffix (Split name).2 (Ext (Split name).2)]) := by
  rcases Split_shape name with ⟨h1, h2, h3⟩ | ⟨P, f, hX, hf2, h1, h2⟩
  · rw [h2] at hf
    rw [h1, h2]
    refine ⟨Base_of_no_slash name hf.1 h3, rfl, ?_⟩
    rw [segments_of_no_slash _ (TrimSuffix_no_slash name _ h3)]
    exact segEquiv_symm (segEquiv_skip_cons [] (Or.inl rfl) _)
  · rw [h2] at hf
    rw [h1, h2]
    have hstem : '/' ∉ TrimSuffix f (Ext f) := TrimSuffix_no_slash f _ hf2
    refine ⟨?_, ?_, ?_⟩
    · rw [hX]
      exact Base_append P f hf.1 hf2
    · rw [hX]
      exact Ext_append P f hf2
    · rw [hX, TrimSuffix_Ext_append P f hf2, segments_append, segments_append,
        segments_of_no_slash _ hstem]
      have h3 : segments ([] : Str) = [[]] := rfl
      rw [h3, List.append_assoc]
      exact segEquiv_append (segEquiv_refl _)
        (segEquiv_symm (segEquiv_skip_cons [] (Or.inl rfl) _))

/-- The Markdown file of the default version depends on the content path only through the
meaning of its extension-free form. -/
theorem GetContentPath_default_congr (h : Handler) (p Z : Str)
    (he : segEquiv (segments (TrimSuffix p (Ext p))) (segments Z)) :
    h.GetContentPath h.DefaultVersionName p
      = Join [h.DocsDir, "_source".toList, Z] ++ ".md".toList := by
  rw [GetContentPath_raw, Join_three _ _ _ (by decide), Join_two _ _ (Clean_ne_nil _)]
  simp only [if_true]
  have hin : segEquiv (segments (Clean ("_source".toList ++ '/' :: TrimSuffix p (Ext p))))
      (segments ("_source".toList ++ '/' :: Z)) := by
    have h1 := segEquiv_Clean_rel ("_source".toList ++ '/' :: TrimSuffix p (Ext p))
      (by rw [head_append_of_ne_nil _ _ (by decide)]; decide)
    rw [segments_append] at h1 ⊢
    exact segEquiv_trans h1 (segEquiv_append (segEquiv_refl _) he)
  congr 1
  apply Clean_congr
  · by_cases hD : h.DocsDir = []
    · rw [if_pos hD, if_pos hD, Clean_head_beq]
      rfl
    · rw [if_neg hD, if_neg hD, head_append_of_ne_nil _ _ hD, head_append_of_ne_nil _ _ hD]
  · by_cases hD : h.DocsDir = []
    · rw [if_pos hD, if_pos hD]
      exact hin
    · rw [if_neg hD, if_neg hD, segments_append, segments_append]
      exact segEquiv_append (segEquiv_refl _) hin

/-- The resolution of a request whose version candidate is no key of the catalog. -/
theorem resolve_default (h : Handler) (lib : Lib) (fs : FS) (name : Str) (hn : name ≠ [])
    (hkey : isFile fs h.versionsFile = false
      ∨ (yamlParseFile lib fs h.versionsFile).lookup (Handler.candidate name) = none) :
    h.resolve lib fs name
      = { version := h.DefaultVersionName
          baseName :=
            if h.DefaultVersionName ≠ TrimSuffix (Base name) (Ext name) ∧ Base name ≠ []
                ∧ Base name ≠ "/".toList then Base name
            else "index.html".toList
          dirName := Replace (requestDir name) h.DefaultVersionName [] (-1) } := by
  have hpos : 0 < name.length := List.length_pos.mpr hn
  have hzero := mapLen_GetVersion_zero h lib fs (Handler.candidate name) hkey
  unfold Handler.resolve requestDir
  simp only [hpos, if_true, hzero, if_false]

end Gdoc

namespace Gdoc

open path strings

/-- C2 fails as stated: without any catalog file the first segment of `default/intro.md` is no
key, yet the file looked up is `storage/docs/_source/intro.md`, not the one named by the full
request path, `storage/docs/_source/default/intro.md`; the request `default.md` is served
from `storage/docs/_source/index.md`, not from `storage/docs/_source/default.md`; the rooted
request `/../x.md` is served from `storage/docs/_source/x.md`, while the full request path
names `storage/docs/x.md`; the request `guide/`, which ends in no file name, is served
from `storage/docs/_source/guide/guide.md`, not from `storage/docs/_source/guide.md`; and the
requests `a.x/.` and `a/b/..`, which end in `.` and `..`, are both served from
`storage/docs/_source/a.md`, not from `storage/docs/_source/a.x.md` and
`storage/docs/_source/a/b.md`. -/
theorem Handle_default_version_counterexample :
    isFile exEmptyFS DefaultHandler.versionsFile = false
      ∧ (DefaultHandler.resolve exLib exEmptyFS "default/intro.md".toList).version
          = DefaultHandler.DefaultVersionName
      ∧ DefaultHandler.GetContentPath DefaultHandler.DefaultVersionName
            (Join [(DefaultHandler.resolve exLib exEmptyFS "default/intro.md".toList).dirName,
              (DefaultHandler.resolve exLib exEmptyFS "default/intro.md".toList).baseName])
          = "storage/docs/_source/intro.md".toList
      ∧ Join [DefaultHandler.DocsDir, "_source".toList,
            TrimSuffix "default/intro.md".toList (Ext "default/intro.md".toList)]
            ++ ".md".toList
          = "storage/docs/_source/default/intro.md".toList
      ∧ DefaultHandler.GetContentPath DefaultHandler.DefaultVersionName
            (Join [(DefaultHandler.resolve exLib exEmptyFS "default.md".toList).dirName,
              (DefaultHandler.resolve exLib exEmptyFS "default.md".toList).baseName])
          = "storage/docs/_source/index.md".toList
      ∧ Join [DefaultHandler.DocsDir, "_source".toList,
            TrimSuffix "default.md".toList (Ext "default.md".toList)] ++ ".md".toList
          = "storage/docs/_source/default.md".toList
      ∧ DefaultHandler.GetContentPath
            (DefaultHandler.resolve exLib exEmptyFS "/../x.md".toList).version
            (Join [(DefaultHandler.resolve exLib exEmptyFS "/../x.md".toList).dirName,
              (DefaultHandler.resolve exLib exEmptyFS "/../x.md".toList).baseName])
          = "storage/docs/_source/x.md".toList
      ∧ Join [DefaultHandler.DocsDir, "_source".toList,
            TrimSuffix "/../x.md".toList (Ext "/../x.md".toList)] ++ ".md".toList
          = "storage/docs/x.md".toList
      ∧ DefaultHandler.GetContentPath
            (DefaultHandler.resolve exLib exEmptyFS "guide/".toList).version
            (Join [(DefaultHandler.resolve exLib exEmptyFS "guide/".toList).dirName,
              (DefaultHandler.resolve exLib exEmptyFS "guide/".toList).baseName])
          = "storage/docs/_source/guide/guide.md".toList
      ∧ Join [DefaultHandler.DocsDir, "_source".toList,
            TrimSuffix "guide/".toList (Ext "guide/".toList)] ++ ".md".toList
          = "storage/docs/_source/guide.md".toList
      ∧ DefaultHandler.GetContentPath
            (DefaultHandler.resolve exLib exEmptyFS "a.x/.".toList).version
            (Join [(DefaultHandler.resolve exLib exEmptyFS "a.x/.".toList).dirName,
              (DefaultHandler.resolve exLib exEmptyFS "a.x/.".toList).baseName])
          = "storage/docs/_source/a.md".toList
      ∧ Join [DefaultHandler.DocsDir, "_source".toList,
            TrimSuffix "a.x/.".toList (Ext "a.x/.".toList)] ++ ".md".toList
          = "storage/docs/_source/a.x.md".toList
      ∧ DefaultHandler.GetContentPath
            (DefaultHandler.resolve exLib exEmptyFS "a/b/..".toList).version
            (Join [(DefaultHandler.resolve exLib exEmptyFS "a/b/..".toList).dirName,
              (DefaultHandler.resolve exLib exEmptyFS "a/b/..".toList).baseName])
          = "storage/docs/_source/a.md".toList
      ∧ Join [DefaultHandler.DocsDir, "_source".toList,
            TrimSuffix "a/b/..".toList (Ext "a/b/..".toList)] ++ ".md".toList
          = "storage/docs/_source/a/b.md".toList := by
  decide

/-- C2, amended: for every request path whose version candidate (the first segment of the
directory `Handle` derives from the request, the empty string when the request has no
directory; for a request `d/.../f` of plain directory segments it is `d`) is no key of the
catalog or whose catalog file is absent, `Handle` uses the default version. When moreover the
request ends in a plain file name (the text after its last slash is not empty, `.` or `..`)
whose stem is not the default version name, the default version name is empty or does not
occur in the directory `Handle` derives from the request (`path.Dir`, with `/` in place of
`.`) or that directory is `/`, and the request is no rooted path that climbs above the root
through `..`, then the Markdown file looked up is
`path.Join(DocsDir, "_source", <request path without its extension>) + ".md"`. -/
theorem Handle_default_version (h : Handler) (lib : Lib) (fs : FS) (name : Str)
    (hkey : isFile fs h.versionsFile = false
      ∨ (yamlParseFile lib fs h.versionsFile).lookup (Handler.candidate name) = none) :
    (h.resolve lib fs name).version = h.DefaultVersionName
      ∧ (∀ (dirs : List Str) (f : Str), (∀ d ∈ dirs, plainSeg d) → '/' ∉ f →
          name = reqPath dirs f → Handler.candidate name = dirs.headD [])
      ∧ (plainSeg (Split name).2 →
          TrimSuffix (Split name).2 (Ext (Split name).2) ≠ h.DefaultVersionName →
          (h.DefaultVersionName = [] ∨ requestDir name = "/".toList
            ∨ Index (requestDir name) h.DefaultVersionName = none) →
          ¬ escapesRoot name →
          h.GetContentPath (h.resolve lib fs name).version
                (Join [(h.resolve lib fs name).dirName, (h.resolve lib fs name).baseName])
              = Join [h.DocsDir, "_source".toList, TrimSuffix name (Ext name)] ++ ".md".toList
            ∧ (h.HandleData lib fs name).content
              = renderFile lib fs
                  (Join [h.DocsDir, "_source".toList, TrimSuffix name (Ext name)]
                    ++ ".md".toList)) := by
  refine ⟨?_, ?_, ?_⟩
  · by_cases hn : name = []
    · rw [hn, resolve_nil]
    · rw [resolve_default h lib fs name hn hkey]
  · intro dirs f hdirs hf hname
    rw [hname]
    cases dirs with
    | nil => exact candidate_file f hf
    | cons d ds =>
      exact candidate_dir d ds f (hdirs d (by simp)) (fun x hx => hdirs x (by simp [hx])) hf
  · intro hf hne hocc hesc
    have hcontent : (h.HandleData lib fs name).content
        = renderFile lib fs (h.GetContentPath (h.resolve lib fs name).version
            (Join [(h.resolve lib fs name).dirName, (h.resolve lib fs name).baseName])) := rfl
    have hn : name ≠ [] := by
      intro hn
      rw [hn] at hf
      exact hf.1 rfl
    obtain ⟨hbase, hext, hstem⟩ := Split_file name hf
    obtain ⟨hd1, hd2, hd3⟩ := requestDir_facts name (Split_ups name hesc)
    have hslash : (Split name).2 ≠ "/".toList := by
      intro h0
      exact hf.2.1 (by rw [h0]; decide)
    have hres : h.resolve lib fs name
        = { version := h.DefaultVersionName, baseName := (Split name).2,
            dirName := Replace (requestDir name) h.DefaultVersionName [] (-1) } := by
      rw [resolve_default h lib fs name hn hkey, hbase, hext]
      simp only [ne_eq, Ne.symm hne, not_false_eq_true, hf.1, hslash, and_self, if_true]
    have hfile : h.GetContentPath (h.resolve lib fs name).version
          (Join [(h.resolve lib fs name).dirName, (h.resolve lib fs name).baseName])
        = Join [h.DocsDir, "_source".toList, TrimSuffix name (Ext name)] ++ ".md".toList := by
      rw [hres]
      simp only []
      apply GetContentPath_default_congr
      exact segEquiv_trans
        (segEquiv_content (requestDir name) (Split name).1 (Split name).2 h.DefaultVersionName
          hf hd1 hd2 hd3 hocc)
        (segEquiv_symm hstem)
    exact ⟨hfile, by rw [hcontent, hfile]⟩

/-- The amended C2 at the example tree: the rooted request `/guides/intro.md` is no page of a
declared version; it is served for the default version from
`storage/docs/_source/guides/intro.md`. -/
theorem Handle_default_version_witness :
    (DefaultHandler.resolve exLib exFS "/guides/intro.md".toList).version
        = DefaultHandler.DefaultVersionName
      ∧ DefaultHandler.GetContentPath
            (DefaultHandler.resolve exLib exFS "/guides/intro.md".toList).version
            (Join [(DefaultHandler.resolve exLib exFS "/guides/intro.md".toList).dirName,
              (DefaultHandler.resolve exLib exFS "/guides/intro.md".toList).baseName])
          = Join [DefaultHandler.DocsDir, "_source".toList,
              TrimSuffix "/guides/intro.md".toList (Ext "/guides/intro.md".toList)]
              ++ ".md".toList
      ∧ Join [DefaultHandler.DocsDir, "_source".toList,
            TrimSuffix "/guides/intro.md".toList (Ext "/guides/intro.md".toList)]
            ++ ".md".toList
          = "storage/docs/_source/guides/intro.md".toList :=
  ⟨(Handle_default_version DefaultHandler exLib exFS "/guides/intro.md".toList
      (by decide)).1,
    ((Handle_default_version DefaultHandler exLib exFS "/guides/intro.md".toList
      (by decide)).2.2 (by decide) (by decide) (by decide) (by decide)).1,
    by decide⟩

end Gdoc
